import Mathlib

/-!
Shallow embedding of the Letter Boxed solver (src/index.ts) together with
proofs about its pipeline: trie membership queries, the letter-box graph
builder, the trie-guided word finder, the dominance filter, the word-graph
builder and the chain search.

JavaScript Sets iterate in insertion order; they are embedded as lists.
Machine integers are embedded as Nat (all quantities here are small
non-negative counts and indices, so no overflow is involved).
-/

set_option maxRecDepth 4000

/-- A found word together with the letter-graph node keys it traverses
(interface LetterBoxWord in src/index.ts). -/
structure LetterBoxWord where
  word : String
  nodeKeys : List String
deriving DecidableEq, Repr

/-- A recorded solution: a chain of words plus the number of distinct
letter nodes it covers (interface LetterBoxSolution in src/index.ts). -/
structure LetterBoxSolution where
  numSeenLetterNodes : Nat
  letterBoxWordList : List LetterBoxWord
deriving DecidableEq, Repr

/-- The subset test of filterWordsInLetterBox (src/index.ts line 229):
the set difference word1KeySet \ word2KeySet is empty, i.e. every node key
of w1 also occurs among w2's node keys. -/
def coveredBy (w1 w2 : LetterBoxWord) : Bool :=
  w1.nodeKeys.all (fun k => w2.nodeKeys.contains k)

/-- The dominance filter (filterWordsInLetterBox, src/index.ts lines
216-241).  The source walks the words in order with index i and drops word
i exactly when some word at a later index j > i covers it (the inner loop
runs j from i + 1 and breaks at the first cover). -/
def filterWordsInLetterBox : List LetterBoxWord → List LetterBoxWord
  | [] => []
  | w :: rest =>
      if rest.any (fun w2 => coveredBy w w2) then filterWordsInLetterBox rest
      else w :: filterWordsInLetterBox rest

/-- The filter only ever keeps elements of its input, in input order. -/
theorem filterWordsInLetterBox_sublist (ws : List LetterBoxWord) :
    List.Sublist (filterWordsInLetterBox ws) ws := by
  induction ws with
  | nil => exact List.Sublist.refl _
  | cons w rest ih =>
      by_cases h : rest.any (fun w2 => coveredBy w w2)
      · simp only [filterWordsInLetterBox, if_pos h]
        exact List.Sublist.cons w ih
      · simp only [filterWordsInLetterBox, if_neg h]
        exact List.Sublist.cons₂ w ih

/-- In the filter's output, no element is covered by any later element. -/
theorem filterWordsInLetterBox_pairwise (ws : List LetterBoxWord) :
    List.Pairwise (fun a b => coveredBy a b = false) (filterWordsInLetterBox ws) := by
  induction ws with
  | nil => exact List.Pairwise.nil
  | cons w rest ih =>
      by_cases h : rest.any (fun w2 => coveredBy w w2)
      · simpa only [filterWordsInLetterBox, if_pos h] using ih
      · simp only [filterWordsInLetterBox, if_neg h]
        refine List.Pairwise.cons (fun b hb => ?_) ih
        have hbrest : b ∈ rest :=
          (filterWordsInLetterBox_sublist rest).mem hb
        have hall : ∀ x ∈ rest, coveredBy w x = false := by
          intro x hx
          by_contra hx2
          exact h (List.any_eq_true.mpr ⟨x, hx, by
            cases hcb : coveredBy w x with
            | false => exact absurd hcb hx2
            | true => rfl⟩)
        exact hall b hbrest

/-- A list in which no element is covered by any later element passes the
filter unchanged. -/
theorem filterWordsInLetterBox_of_pairwise (ws : List LetterBoxWord)
    (h : List.Pairwise (fun a b => coveredBy a b = false) ws) :
    filterWordsInLetterBox ws = ws := by
  induction ws with
  | nil => rfl
  | cons w rest ih =>
      have hhead : ∀ x ∈ rest, coveredBy w x = false :=
        (List.pairwise_cons.mp h).1
      have hany : rest.any (fun w2 => coveredBy w w2) = false := by
        cases hv : rest.any (fun w2 => coveredBy w w2) with
        | false => rfl
        | true =>
            rcases List.any_eq_true.mp hv with ⟨x, hx, hcx⟩
            have := hhead x hx
            simp only [this] at hcx
            exact absurd hcx (by simp)
      simp only [filterWordsInLetterBox, hany, Bool.false_eq_true, if_false,
        ih ((List.pairwise_cons.mp h).2)]

/-- C6: the dominance filter is idempotent: applying filterWordsInLetterBox
to its own output returns that output unchanged, for every input word list. -/
theorem filterWordsInLetterBox_idempotent (ws : List LetterBoxWord) :
    filterWordsInLetterBox (filterWordsInLetterBox ws) = filterWordsInLetterBox ws :=
  filterWordsInLetterBox_of_pairwise _ (filterWordsInLetterBox_pairwise ws)

/-- A word whose coverage is a strict superset of a later word's coverage. -/
def wBig : LetterBoxWord := ⟨ "big", ["k1", "k2", "k3"]⟩

/-- A word strictly dominated by wBig, placed after wBig in the input. -/
def wSml : LetterBoxWord := ⟨ "sml", ["k1", "k2"]⟩

/-- C1 counterexample: the filter only drops a word dominated by a LATER
word, so on input [wBig, wSml] both words survive although wSml's
node-coverage set is a strict subset of wBig's: the filtered output does
contain a word whose coverage is a strict subset of another survivor's. -/
theorem filterWordsInLetterBox_keeps_dominated_word :
    filterWordsInLetterBox [wBig, wSml] = [wBig, wSml] ∧
    coveredBy wSml wBig = true ∧
    coveredBy wBig wSml = false := by
  decide

/-- C1 (amended): the filter guarantees no domination in the forward
direction only: whenever w1 appears before w2 in the filtered output, w1's
node-coverage set is not a subset (in particular not a strict subset) of
w2's.  A surviving word may still be strictly dominated by a survivor that
appeared EARLIER in the input order. -/
theorem filterWordsInLetterBox_no_forward_domination
    (ws l1 l2 l3 : List LetterBoxWord) (w1 w2 : LetterBoxWord)
    (h : filterWordsInLetterBox ws = l1 ++ w1 :: (l2 ++ w2 :: l3)) :
    coveredBy w1 w2 = false := by
  have hp := filterWordsInLetterBox_pairwise ws
  rw [h] at hp
  have h1 := (List.pairwise_append.mp hp).2.1
  have h2 := (List.pairwise_cons.mp h1).1
  exact h2 w2 (by simp)

/-- Witness for the amended C1 theorem at a concrete input. -/
theorem filterWordsInLetterBox_no_forward_domination_witness :
    filterWordsInLetterBox [wBig, wSml] = [] ++ wBig :: ([] ++ wSml :: []) ∧
    coveredBy wBig wSml = false :=
  ⟨by decide,
   filterWordsInLetterBox_no_forward_domination [wBig, wSml] [] [] [] wBig wSml (by decide)⟩

/-- Model of the trie-search library as used by createTrie (src/index.ts
lines 28-33): the trie stores the dictionary entries, and search(s) returns
every stored entry having s as a prefix, with an exact match (if present)
returned first — search reaches the trie node spelled by s and aggregates
the entries stored at that node before those stored in its subtree. -/
def trieSearch (dict : List String) (s : String) : List String :=
  dict.filter (fun w => w == s) ++
    dict.filter (fun w => List.isPrefixOf s.data w.data && w != s)

/-- isWord (src/index.ts lines 141-149): reject strings shorter than 3,
then test that the trie search returns something and that its first result
is the string itself. -/
def isWord (s : String) (dict : List String) : Bool :=
  if s.length < 3 then false
  else
    match trieSearch dict s with
    | [] => false
    | w :: _ => w == s

/-- isPrefix (src/index.ts lines 151-155): the trie search returns at
least one entry. -/
def isPrefixInTrie (pre : String) (dict : List String) : Bool :=
  decide (0 < (trieSearch dict pre).length)

/-- C2: isWord returns true exactly on strings of length at least 3 that
are exact dictionary entries. -/
theorem isWord_iff (s : String) (dict : List String) :
    isWord s dict = true ↔ 3 ≤ s.length ∧ s ∈ dict := by
  by_cases hl : s.length < 3
  · simp only [isWord, if_pos hl]
    constructor
    · intro hfalse
      cases hfalse
    · intro ⟨h3, _⟩
      omega
  · simp only [isWord, if_neg hl]
    by_cases hmem : s ∈ dict
    · have hs : s ∈ dict.filter (fun w => w == s) :=
        List.mem_filter.mpr ⟨hmem, by simp⟩
      constructor
      · intro _
        exact ⟨by omega, hmem⟩
      · intro _
        cases hfil : dict.filter (fun w => w == s) with
        | nil => rw [hfil] at hs; cases hs
        | cons a t =>
            have ha : a ∈ dict.filter (fun w => w == s) := by
              rw [hfil]; exact List.mem_cons_self a t
            have := (List.mem_filter.mp ha).2
            simp only [trieSearch, hfil, List.cons_append]
            exact this
    · have hfil : dict.filter (fun w => w == s) = [] := by
        apply List.filter_eq_nil_iff.mpr
        intro x hx
        simp only [beq_iff_eq]
        intro hxs
        exact hmem (hxs ▸ hx)
      constructor
      · intro htrue
        exfalso
        simp only [trieSearch, hfil, List.nil_append] at htrue
        cases hfil2 : dict.filter (fun w => List.isPrefixOf s.data w.data && w != s) with
        | nil => rw [hfil2] at htrue; cases htrue
        | cons a t =>
            rw [hfil2] at htrue
            have ha : a ∈ dict.filter (fun w => List.isPrefixOf s.data w.data && w != s) := by
              rw [hfil2]; exact List.mem_cons_self a t
            have h2 := (List.mem_filter.mp ha).2
            have hane : (a != s) = true := (Bool.and_elim_right h2)
            have : a = s := by simpa using htrue
            simp only [this, bne_self_eq_false] at hane
            exact Bool.false_ne_true hane
      · intro ⟨_, hmem2⟩
        exact absurd hmem2 hmem

/-- Model of an undirected graphlib graph as used by createLetterBoxGraph:
nodes are (key, stored value) pairs kept in insertion order without
duplicate keys, edges are key pairs recorded once per unordered pair. -/
structure LBGraph where
  nodes : List (String × String)
  edges : List (String × String)
deriving DecidableEq, Repr

/-- The node keys of the graph, in insertion order (graphlib nodes()). -/
def LBGraph.keys (g : LBGraph) : List String := g.nodes.map Prod.fst

/-- graphlib setNode: overwrite the stored value when the key is already
present, otherwise append a fresh node. -/
def LBGraph.setNode (g : LBGraph) (k v : String) : LBGraph :=
  if g.keys.contains k then
    { g with nodes := g.nodes.map (fun p => if p.1 == k then (k, v) else p) }
  else { g with nodes := g.nodes ++ [(k, v)] }

/-- graphlib setEdge on an undirected graph: record the edge once per
unordered pair of endpoints. -/
def LBGraph.setEdgeU (g : LBGraph) (a b : String) : LBGraph :=
  if g.edges.contains (a, b) || g.edges.contains (b, a) then g
  else { g with edges := g.edges ++ [(a, b)] }

/-- Undirected edge test: the pair was recorded in either orientation. -/
def LBGraph.hasEdgeU (g : LBGraph) (a b : String) : Bool :=
  g.edges.contains (a, b) || g.edges.contains (b, a)

/-- graphlib neighbors(k): endpoints opposite k on recorded edges. -/
def LBGraph.neighbors (g : LBGraph) (k : String) : List String :=
  (g.edges.filter (fun e => e.1 == k)).map Prod.snd ++
    (g.edges.filter (fun e => e.2 == k)).map Prod.fst

/-- graphlib node(k): the stored value; a missing key behaves like the
empty string (JavaScript undefined contributes nothing to a join). -/
def LBGraph.nodeVal (g : LBGraph) (k : String) : String :=
  ((g.nodes.find? (fun p => p.1 == k)).map Prod.snd).getD ""

/-- The node-key template of createLetterBoxGraph (src/index.ts lines 45
and 48): side index, then position within the side, then a colon, then the
letter, with no padding between the two indices. -/
def letterKey (i li : Nat) (letter : String) : String :=
  Nat.repr i ++ Nat.repr li ++ ":" ++ letter

/-- All ordered pairs (x, y) with x strictly before y in the list, in the
order the two nested side loops of createLetterBoxGraph visit them. -/
def ordPairs {α : Type} : List α → List (α × α)
  | [] => []
  | x :: xs => xs.map (fun y => (x, y)) ++ ordPairs xs

/-- One innermost iteration of createLetterBoxGraph: the two keyed letters
whose nodes are set and between which an edge is set. -/
structure BoxOp where
  k1 : String
  v1 : String
  k2 : String
  v2 : String
deriving DecidableEq, Repr

/-- The innermost iterations of createLetterBoxGraph in program order:
for every pair of sides i < j and every letter position in each. -/
def boxOps (sides : List (List String)) : List BoxOp :=
  (ordPairs sides.enum).flatMap (fun pq =>
    pq.1.2.enum.flatMap (fun pl =>
      pq.2.2.enum.map (fun ql =>
        ⟨letterKey pq.1.1 pl.1 pl.2, pl.2, letterKey pq.2.1 ql.1 ql.2, ql.2⟩)))

/-- The body of the innermost loop (src/index.ts lines 50-52): set both
nodes, then set the undirected edge between them. -/
def applyBoxOp (g : LBGraph) (op : BoxOp) : LBGraph :=
  ((g.setNode op.k1 op.v1).setNode op.k2 op.v2).setEdgeU op.k1 op.k2

/-- createLetterBoxGraph (src/index.ts lines 35-59). -/
def createLetterBoxGraph (sides : List (List String)) : LBGraph :=
  (boxOps sides).foldl applyBoxOp ⟨[], []⟩

/-- Letter c occurs at position li of side i of the layout. -/
def occAt (sides : List (List String)) (i li : Nat) (c : String) : Prop :=
  ∃ s, sides[i]? = some s ∧ s[li]? = some c

theorem LBGraph.keys_setNode (g : LBGraph) (k v : String) :
    (g.setNode k v).keys =
      if g.keys.contains k then g.keys else g.keys ++ [k] := by
  unfold setNode
  by_cases h : g.keys.contains k
  · rw [if_pos h, if_pos h]
    show List.map Prod.fst (g.nodes.map fun p => if p.1 == k then (k, v) else p)
        = g.keys
    rw [List.map_map]
    refine List.map_congr_left ?_
    intro p _
    by_cases hp : p.1 = k
    · simp [Function.comp, hp]
    · simp [Function.comp, hp]
  · rw [if_neg h, if_neg h]
    show List.map Prod.fst (g.nodes ++ [(k, v)]) = g.keys ++ [k]
    rw [List.map_append]
    rfl

theorem LBGraph.mem_keys_setNode (g : LBGraph) (k v k' : String) :
    k' ∈ (g.setNode k v).keys ↔ k' ∈ g.keys ∨ k' = k := by
  rw [keys_setNode]
  by_cases h : k ∈ g.keys
  · rw [if_pos (by simp [h])]
    constructor
    · exact fun hm => Or.inl hm
    · rintro (hm | rfl)
      · exact hm
      · exact h
  · rw [if_neg (by simp [h])]
    simp [List.mem_append]

theorem LBGraph.nodup_keys_setNode (g : LBGraph) (k v : String)
    (h : g.keys.Nodup) : (g.setNode k v).keys.Nodup := by
  rw [keys_setNode]
  by_cases hk : k ∈ g.keys
  · rw [if_pos (by simp [hk])]
    exact h
  · rw [if_neg (by simp [hk])]
    simpa [List.nodup_append] using ⟨h, hk⟩

theorem LBGraph.edges_setNode (g : LBGraph) (k v : String) :
    (g.setNode k v).edges = g.edges := by
  unfold setNode
  split <;> rfl

theorem LBGraph.keys_setEdgeU (g : LBGraph) (a b : String) :
    (g.setEdgeU a b).keys = g.keys := by
  unfold setEdgeU
  split <;> rfl

theorem LBGraph.hasEdgeU_setEdgeU (g : LBGraph) (a b x y : String) :
    (g.setEdgeU a b).hasEdgeU x y = true ↔
      g.hasEdgeU x y = true ∨ (x = a ∧ y = b) ∨ (x = b ∧ y = a) := by
  unfold setEdgeU hasEdgeU
  by_cases h : (g.edges.contains (a, b) || g.edges.contains (b, a)) = true
  · rw [if_pos h]
    constructor
    · exact fun hm => Or.inl hm
    · rintro (hm | ⟨rfl, rfl⟩ | ⟨rfl, rfl⟩)
      · exact hm
      · exact h
      · simpa [Bool.or_comm] using h
  · rw [if_neg h]
    simp only [Bool.or_eq_true, List.elem_eq_mem, decide_eq_true_eq,
      List.mem_append, List.mem_singleton, Prod.mk.injEq]
    constructor
    · rintro ((hm | ⟨rfl, rfl⟩) | (hm | ⟨rfl, rfl⟩))
      · exact Or.inl (Or.inl hm)
      · exact Or.inr (Or.inl ⟨rfl, rfl⟩)
      · exact Or.inl (Or.inr hm)
      · exact Or.inr (Or.inr ⟨rfl, rfl⟩)
    · rintro ((hm | hm) | ⟨rfl, rfl⟩ | ⟨rfl, rfl⟩)
      · exact Or.inl (Or.inl hm)
      · exact Or.inr (Or.inl hm)
      · exact Or.inl (Or.inr ⟨rfl, rfl⟩)
      · exact Or.inr (Or.inr ⟨rfl, rfl⟩)

theorem LBGraph.mem_keys_applyBoxOp (g : LBGraph) (op : BoxOp) (k : String) :
    k ∈ (applyBoxOp g op).keys ↔ k ∈ g.keys ∨ k = op.k1 ∨ k = op.k2 := by
  unfold applyBoxOp
  rw [keys_setEdgeU, mem_keys_setNode, mem_keys_setNode]
  tauto

theorem LBGraph.hasEdgeU_applyBoxOp (g : LBGraph) (op : BoxOp) (x y : String) :
    (applyBoxOp g op).hasEdgeU x y = true ↔
      g.hasEdgeU x y = true ∨ (x = op.k1 ∧ y = op.k2) ∨ (x = op.k2 ∧ y = op.k1) := by
  unfold applyBoxOp
  rw [hasEdgeU_setEdgeU]
  unfold hasEdgeU
  rw [edges_setNode, edges_setNode]

theorem LBGraph.mem_keys_foldl (ops : List BoxOp) (g : LBGraph) (k : String) :
    k ∈ (ops.foldl applyBoxOp g).keys ↔
      k ∈ g.keys ∨ ∃ op ∈ ops, k = op.k1 ∨ k = op.k2 := by
  induction ops generalizing g with
  | nil => simp
  | cons op ops ih =>
      rw [List.foldl_cons, ih, mem_keys_applyBoxOp]
      constructor
      · rintro ((hg | h1) | ⟨op2, hmem, h2⟩)
        · exact Or.inl hg
        · exact Or.inr ⟨op, List.mem_cons_self op ops, h1⟩
        · exact Or.inr ⟨op2, List.mem_cons_of_mem op hmem, h2⟩
      · rintro (hg | ⟨op2, hmem, h2⟩)
        · exact Or.inl (Or.inl hg)
        · rcases List.mem_cons.mp hmem with rfl | hmem2
          · exact Or.inl (Or.inr h2)
          · exact Or.inr ⟨op2, hmem2, h2⟩

theorem LBGraph.hasEdgeU_foldl (ops : List BoxOp) (g : LBGraph) (x y : String) :
    (ops.foldl applyBoxOp g).hasEdgeU x y = true ↔
      g.hasEdgeU x y = true ∨
        ∃ op ∈ ops, (x = op.k1 ∧ y = op.k2) ∨ (x = op.k2 ∧ y = op.k1) := by
  induction ops generalizing g with
  | nil => simp
  | cons op ops ih =>
      rw [List.foldl_cons, ih, hasEdgeU_applyBoxOp]
      constructor
      · rintro ((hg | h1) | ⟨op2, hmem, h2⟩)
        · exact Or.inl hg
        · exact Or.inr ⟨op, List.mem_cons_self op ops, h1⟩
        · exact Or.inr ⟨op2, List.mem_cons_of_mem op hmem, h2⟩
      · rintro (hg | ⟨op2, hmem, h2⟩)
        · exact Or.inl (Or.inl hg)
        · rcases List.mem_cons.mp hmem with rfl | hmem2
          · exact Or.inl (Or.inr h2)
          · exact Or.inr ⟨op2, hmem2, h2⟩

theorem LBGraph.nodup_keys_foldl (ops : List BoxOp) (g : LBGraph)
    (h : g.keys.Nodup) : (ops.foldl applyBoxOp g).keys.Nodup := by
  induction ops generalizing g with
  | nil => exact h
  | cons op ops ih =>
      rw [List.foldl_cons]
      apply ih
      unfold applyBoxOp
      rw [keys_setEdgeU]
      exact nodup_keys_setNode _ _ _ (nodup_keys_setNode _ _ _ h)

/-- The node keys of every letter-box graph are free of duplicates. -/
theorem createLetterBoxGraph_nodup_keys (sides : List (List String)) :
    (createLetterBoxGraph sides).keys.Nodup :=
  LBGraph.nodup_keys_foldl _ _ List.nodup_nil

theorem mem_enumFrom_elim {α : Type} {l : List α} {n : Nat} {q : Nat × α}
    (h : q ∈ l.enumFrom n) : n ≤ q.1 ∧ l[q.1 - n]? = some q.2 := by
  obtain ⟨i, b⟩ := q
  exact List.mk_mem_enumFrom_iff_le_and_getElem?_sub.mp h

theorem mem_ordPairs_enumFrom {α : Type} (l : List α) (n : Nat)
    (p : (Nat × α) × (Nat × α)) :
    p ∈ ordPairs (l.enumFrom n) ↔
      p.1 ∈ l.enumFrom n ∧ p.2 ∈ l.enumFrom n ∧ p.1.1 < p.2.1 := by
  induction l generalizing n p with
  | nil => simp [ordPairs, List.enumFrom]
  | cons a l ih =>
      rw [List.enumFrom_cons]
      show p ∈ (l.enumFrom (n + 1)).map (fun y => ((n, a), y)) ++
          ordPairs (l.enumFrom (n + 1)) ↔ _
      rw [List.mem_append, List.mem_map, ih]
      constructor
      · rintro (⟨y, hy, rfl⟩ | ⟨h1, h2, hlt⟩)
        · refine ⟨List.mem_cons_self _ _, List.mem_cons_of_mem _ hy, ?_⟩
          have hge := (mem_enumFrom_elim hy).1
          show n < y.1
          omega
        · exact ⟨List.mem_cons_of_mem _ h1, List.mem_cons_of_mem _ h2, hlt⟩
      · rintro ⟨h1, h2, hlt⟩
        rcases List.mem_cons.mp h1 with he1 | h1mem
        · rcases List.mem_cons.mp h2 with he2 | h2mem
          · exfalso
            rw [he1, he2] at hlt
            exact lt_irrefl _ hlt
          · left
            refine ⟨p.2, h2mem, ?_⟩
            rw [← he1]
        · rcases List.mem_cons.mp h2 with he2 | h2mem
          · exfalso
            have hge := (mem_enumFrom_elim h1mem).1
            rw [he2] at hlt
            simp only at hlt
            omega
          · right
            exact ⟨h1mem, h2mem, hlt⟩

theorem mem_ordPairs_enum {α : Type} (l : List α) (p : (Nat × α) × (Nat × α)) :
    p ∈ ordPairs l.enum ↔ p.1 ∈ l.enum ∧ p.2 ∈ l.enum ∧ p.1.1 < p.2.1 :=
  mem_ordPairs_enumFrom l 0 p

/-- Membership characterization of the innermost-iteration list: one BoxOp
for every ordered pair of side indices i < j and every letter position in
each of the two sides. -/
theorem mem_boxOps_iff (sides : List (List String)) (op : BoxOp) :
    op ∈ boxOps sides ↔
      ∃ i j s1 s2 li lj c1 c2,
        i < j ∧ sides[i]? = some s1 ∧ sides[j]? = some s2 ∧
        s1[li]? = some c1 ∧ s2[lj]? = some c2 ∧
        op = ⟨letterKey i li c1, c1, letterKey j lj c2, c2⟩ := by
  unfold boxOps
  rw [List.mem_flatMap]
  constructor
  · rintro ⟨pq, hpq, hop⟩
    rw [List.mem_flatMap] at hop
    obtain ⟨pl, hpl, hop⟩ := hop
    rw [List.mem_map] at hop
    obtain ⟨ql, hql, rfl⟩ := hop
    obtain ⟨⟨i, s1⟩, ⟨j, s2⟩⟩ := pq
    obtain ⟨li, c1⟩ := pl
    obtain ⟨lj, c2⟩ := ql
    obtain ⟨hm1, hm2, hlt⟩ := (mem_ordPairs_enum sides _).mp hpq
    refine ⟨i, j, s1, s2, li, lj, c1, c2, hlt, ?_, ?_, ?_, ?_, rfl⟩
    · exact List.mk_mem_enum_iff_getElem?.mp hm1
    · exact List.mk_mem_enum_iff_getElem?.mp hm2
    · exact List.mk_mem_enum_iff_getElem?.mp hpl
    · exact List.mk_mem_enum_iff_getElem?.mp hql
  · rintro ⟨i, j, s1, s2, li, lj, c1, c2, hlt, hgi, hgj, hgli, hglj, rfl⟩
    refine ⟨((i, s1), (j, s2)), ?_, ?_⟩
    · exact (mem_ordPairs_enum sides _).mpr
        ⟨List.mk_mem_enum_iff_getElem?.mpr hgi,
         List.mk_mem_enum_iff_getElem?.mpr hgj, hlt⟩
    · rw [List.mem_flatMap]
      refine ⟨(li, c1), List.mk_mem_enum_iff_getElem?.mpr hgli, ?_⟩
      rw [List.mem_map]
      exact ⟨(lj, c2), List.mk_mem_enum_iff_getElem?.mpr hglj, rfl⟩

theorem createLetterBoxGraph_mem_keys (sides : List (List String)) (k : String) :
    k ∈ (createLetterBoxGraph sides).keys ↔
      ∃ op ∈ boxOps sides, k = op.k1 ∨ k = op.k2 := by
  unfold createLetterBoxGraph
  rw [LBGraph.mem_keys_foldl]
  constructor
  · rintro (hnil | h)
    · cases hnil
    · exact h
  · exact fun h => Or.inr h

theorem createLetterBoxGraph_hasEdgeU (sides : List (List String)) (x y : String) :
    (createLetterBoxGraph sides).hasEdgeU x y = true ↔
      ∃ op ∈ boxOps sides, (x = op.k1 ∧ y = op.k2) ∨ (x = op.k2 ∧ y = op.k1) := by
  unfold createLetterBoxGraph
  rw [LBGraph.hasEdgeU_foldl]
  constructor
  · rintro (hnil | h)
    · cases hnil
    · exact h
  · exact fun h => Or.inr h

/-- A node key exists exactly for the letter occurrences that the pair
loops reach: the occurrence's own side must be paired with some other side
holding at least one letter.  When there are at least two sides and every
side is non-empty, that is every occurrence. -/
theorem createLetterBoxGraph_keys_iff (sides : List (List String))
    (h2 : 2 ≤ sides.length) (hne : ∀ s ∈ sides, s ≠ []) (k : String) :
    k ∈ (createLetterBoxGraph sides).keys ↔
      ∃ i li c, occAt sides i li c ∧ k = letterKey i li c := by
  rw [createLetterBoxGraph_mem_keys]
  constructor
  · rintro ⟨op, hop, hk⟩
    obtain ⟨i, j, s1, s2, li, lj, c1, c2, hlt, hgi, hgj, hgli, hglj, rfl⟩ :=
      (mem_boxOps_iff sides op).mp hop
    rcases hk with rfl | rfl
    · exact ⟨i, li, c1, ⟨s1, hgi, hgli⟩, rfl⟩
    · exact ⟨j, lj, c2, ⟨s2, hgj, hglj⟩, rfl⟩
  · rintro ⟨i, li, c, ⟨s, hgs, hgc⟩, rfl⟩
    have hi : i < sides.length := by
      by_contra hcon
      rw [List.getElem?_eq_none (by omega)] at hgs
      cases hgs
    set j : Nat := if i = 0 then 1 else 0 with hj
    have hjlt : j < sides.length := by
      rw [hj]
      split <;> omega
    have hij : i ≠ j := by
      rw [hj]
      split <;> omega
    obtain ⟨s2, hgs2⟩ : ∃ s2, sides[j]? = some s2 := by
      rw [List.getElem?_eq_getElem hjlt]
      exact ⟨_, rfl⟩
    have hs2mem : s2 ∈ sides := by
      have := List.getElem?_eq_some.mp hgs2
      obtain ⟨hlt2, heq⟩ := this
      rw [← heq]
      exact List.getElem_mem hlt2
    obtain ⟨c2, hgc2⟩ : ∃ c2, s2[0]? = some c2 := by
      have hpos : 0 < s2.length := List.length_pos.mpr (hne s2 hs2mem)
      rw [List.getElem?_eq_getElem hpos]
      exact ⟨_, rfl⟩
    rcases Nat.lt_or_ge i j with hij2 | hij2
    · refine ⟨⟨letterKey i li c, c, letterKey j 0 c2, c2⟩, ?_, Or.inl rfl⟩
      exact (mem_boxOps_iff sides _).mpr
        ⟨i, j, s, s2, li, 0, c, c2, hij2, hgs, hgs2, hgc, hgc2, rfl⟩
    · have hji : j < i := by omega
      refine ⟨⟨letterKey j 0 c2, c2, letterKey i li c, c⟩, ?_, Or.inr rfl⟩
      exact (mem_boxOps_iff sides _).mpr
        ⟨j, i, s2, s, 0, li, c2, c, hji, hgs2, hgs, hgc2, hgc, rfl⟩

/-- An undirected edge exists exactly between (keys of) two letter
occurrences lying on different sides. -/
theorem createLetterBoxGraph_edge_iff (sides : List (List String)) (x y : String) :
    (createLetterBoxGraph sides).hasEdgeU x y = true ↔
      ∃ i li c j lj c2, occAt sides i li c ∧ occAt sides j lj c2 ∧ i ≠ j ∧
        x = letterKey i li c ∧ y = letterKey j lj c2 := by
  rw [createLetterBoxGraph_hasEdgeU]
  constructor
  · rintro ⟨op, hop, hk⟩
    obtain ⟨i, j, s1, s2, li, lj, c1, c2, hlt, hgi, hgj, hgli, hglj, rfl⟩ :=
      (mem_boxOps_iff sides op).mp hop
    rcases hk with ⟨rfl, rfl⟩ | ⟨rfl, rfl⟩
    · exact ⟨i, li, c1, j, lj, c2, ⟨s1, hgi, hgli⟩, ⟨s2, hgj, hglj⟩,
        by omega, rfl, rfl⟩
    · exact ⟨j, lj, c2, i, li, c1, ⟨s2, hgj, hglj⟩, ⟨s1, hgi, hgli⟩,
        by omega, rfl, rfl⟩
  · rintro ⟨i, li, c, j, lj, c2, ⟨s1, hgs1, hgc1⟩, ⟨s2, hgs2, hgc2⟩, hij, rfl, rfl⟩
    rcases Nat.lt_or_ge i j with hlt | hge
    · refine ⟨⟨letterKey i li c, c, letterKey j lj c2, c2⟩, ?_, Or.inl ⟨rfl, rfl⟩⟩
      exact (mem_boxOps_iff sides _).mpr
        ⟨i, j, s1, s2, li, lj, c, c2, hlt, hgs1, hgs2, hgc1, hgc2, rfl⟩
    · have hlt : j < i := by omega
      refine ⟨⟨letterKey j lj c2, c2, letterKey i li c, c⟩, ?_, Or.inr ⟨rfl, rfl⟩⟩
      exact (mem_boxOps_iff sides _).mpr
        ⟨j, i, s2, s1, lj, li, c2, c, hlt, hgs2, hgs1, hgc2, hgc1, rfl⟩

theorem natRepr_lt10 (i : Nat) (h : i < 10) :
    (Nat.repr i).data = [Nat.digitChar i] := by
  interval_cases i <;> rfl

theorem digitChar_inj (i j : Nat) (hi : i < 10) (hj : j < 10)
    (h : Nat.digitChar i = Nat.digitChar j) : i = j := by
  interval_cases i <;> interval_cases j <;>
    first
      | rfl
      | exact absurd h (by decide)

/-- Below ten sides of at most ten letters, the unpadded key template is
injective: the key determines the occurrence (and the letter). -/
theorem letterKey_inj (i li j lj : Nat) (c c2 : String)
    (hi : i < 10) (hli : li < 10) (hj : j < 10) (hlj : lj < 10)
    (h : letterKey i li c = letterKey j lj c2) :
    i = j ∧ li = lj ∧ c = c2 := by
  have hd := congrArg String.data h
  have hcolon : (":" : String).data = [':'] := rfl
  simp only [letterKey, String.data_append, hcolon, natRepr_lt10 _ hi,
    natRepr_lt10 _ hli, natRepr_lt10 _ hj, natRepr_lt10 _ hlj,
    List.cons_append, List.nil_append, List.cons.injEq] at hd
  obtain ⟨h1, h2, h3⟩ := hd
  exact ⟨digitChar_inj i j hi hj h1, digitChar_inj li lj hli hlj h2,
    by apply String.ext; exact h3.2⟩

/-- C3 counterexample: the layout [["a"]] with a single side has one
letter occurrence, yet createLetterBoxGraph produces a graph with no nodes
at all — nodes are only ever created inside the loop over pairs of
distinct sides, so the graph does not contain one node per occurrence. -/
theorem createLetterBoxGraph_single_side_no_nodes :
    (createLetterBoxGraph [["a"]]).nodes = [] ∧ occAt [["a"]] 0 0 "a" :=
  ⟨rfl, ⟨["a"], rfl, rfl⟩⟩

/-- C3 (amended): for layouts with at least two and at most ten sides,
each non-empty with at most ten letters (so that the unpadded keys cannot
collide), the graph has exactly one node per letter occurrence — the node
keys are exactly the occurrence keys, without duplicates, and distinct
occurrences have distinct keys — and an undirected edge joins two keys
exactly when they are occurrence keys of letters on different sides.
Layouts with a single side, or with an empty side next to just one other
side, lose nodes (see the counterexample), so the two-sided non-empty
hypothesis is required for the node part. -/
theorem createLetterBoxGraph_correct (sides : List (List String))
    (h2 : 2 ≤ sides.length) (h10 : sides.length ≤ 10)
    (hside : ∀ s ∈ sides, s ≠ [] ∧ s.length ≤ 10) :
    (∀ k, k ∈ (createLetterBoxGraph sides).keys ↔
        ∃ i li c, occAt sides i li c ∧ k = letterKey i li c) ∧
    (createLetterBoxGraph sides).keys.Nodup ∧
    (∀ i li c j lj c2, occAt sides i li c → occAt sides j lj c2 →
        letterKey i li c = letterKey j lj c2 → i = j ∧ li = lj ∧ c = c2) ∧
    (∀ x y, (createLetterBoxGraph sides).hasEdgeU x y = true ↔
        ∃ i li c j lj c2, occAt sides i li c ∧ occAt sides j lj c2 ∧ i ≠ j ∧
          x = letterKey i li c ∧ y = letterKey j lj c2) := by
  refine ⟨?_, createLetterBoxGraph_nodup_keys sides, ?_, ?_⟩
  · exact createLetterBoxGraph_keys_iff sides h2 (fun s hs => (hside s hs).1)
  · rintro i li c j lj c2 ⟨s1, hgs1, hgc1⟩ ⟨s2, hgs2, hgc2⟩ heq
    obtain ⟨hi, hs1⟩ := List.getElem?_eq_some.mp hgs1
    obtain ⟨hj, hs2⟩ := List.getElem?_eq_some.mp hgs2
    obtain ⟨hli, _⟩ := List.getElem?_eq_some.mp hgc1
    obtain ⟨hlj, _⟩ := List.getElem?_eq_some.mp hgc2
    have hs1mem : s1 ∈ sides := hs1 ▸ List.getElem_mem hi
    have hs2mem : s2 ∈ sides := hs2 ▸ List.getElem_mem hj
    exact letterKey_inj i li j lj c c2 (by omega)
      (by have := (hside s1 hs1mem).2; omega) (by omega)
      (by have := (hside s2 hs2mem).2; omega) heq
  · exact createLetterBoxGraph_edge_iff sides

/-- Witness for the amended C3 theorem at the two-by-two box of the spec's
concrete scenario. -/
theorem createLetterBoxGraph_correct_witness :
    (2 ≤ ([["a", "b"], ["c", "d"]] : List (List String)).length ∧
      ([["a", "b"], ["c", "d"]] : List (List String)).length ≤ 10 ∧
      ∀ s ∈ ([["a", "b"], ["c", "d"]] : List (List String)), s ≠ [] ∧ s.length ≤ 10) ∧
    ((∀ k, k ∈ (createLetterBoxGraph [["a", "b"], ["c", "d"]]).keys ↔
        ∃ i li c, occAt [["a", "b"], ["c", "d"]] i li c ∧ k = letterKey i li c) ∧
      (createLetterBoxGraph [["a", "b"], ["c", "d"]]).keys.Nodup ∧
      (∀ i li c j lj c2, occAt [["a", "b"], ["c", "d"]] i li c →
          occAt [["a", "b"], ["c", "d"]] j lj c2 →
          letterKey i li c = letterKey j lj c2 → i = j ∧ li = lj ∧ c = c2) ∧
      (∀ x y, (createLetterBoxGraph [["a", "b"], ["c", "d"]]).hasEdgeU x y = true ↔
        ∃ i li c j lj c2, occAt [["a", "b"], ["c", "d"]] i li c ∧
          occAt [["a", "b"], ["c", "d"]] j lj c2 ∧ i ≠ j ∧
          x = letterKey i li c ∧ y = letterKey j lj c2)) :=
  ⟨⟨by decide, by decide, by decide⟩,
   createLetterBoxGraph_correct [["a", "b"], ["c", "d"]] (by decide) (by decide)
     (by decide)⟩

/-- One step of the word-finder depth-first search (visitNode, src/index.ts
lines 112-138), with an explicit fuel argument bounding recursion depth;
exhausting the fuel returns the accumulators unchanged.  The source's
recursion depth is bounded in practice by the longest dictionary entry,
since recursion continues only while the concatenated letters form a valid
prefix of some entry.  The mutable seen-path set and word set are threaded
functionally; the path is passed by value because the source restores it
(path.pop) before every return. -/
def visitNode (fuel : Nat) (nodeKey : String) (path : List String)
    (seenPaths : List String) (graph : LBGraph) (dict : List String)
    (words : List LetterBoxWord) : List String × List LetterBoxWord :=
  match fuel with
  | 0 => (seenPaths, words)
  | fuel + 1 =>
      let path2 := path ++ [nodeKey]
      let pathKey := String.intercalate " " path2
      let pre := String.join (path2.map (fun k => graph.nodeVal k))
      if seenPaths.contains pathKey then (seenPaths, words)
      else
        let seen2 := seenPaths ++ [pathKey]
        let words2 :=
          if isWord pre dict then words ++ [⟨pre, path2⟩] else words
        if isPrefixInTrie pre dict then
          (graph.neighbors nodeKey).foldl
            (fun st neighborKey =>
              visitNode fuel neighborKey path2 st.1 graph dict st.2)
            (seen2, words2)
        else (seen2, words2)

/-- Length of the longest dictionary entry: the practical bound on the
word finder's search depth. -/
def maxWordLen (dict : List String) : Nat :=
  dict.foldl (fun m w => max m w.length) 0

/-- findWords (src/index.ts lines 102-110): run the depth-first search
from every graph node, with a fresh seen-path set per start node and a
shared word accumulator. -/
def findWords (dict : List String) (graph : LBGraph) : List LetterBoxWord :=
  graph.keys.foldl
    (fun words nodeKey =>
      (visitNode (maxWordLen dict + 2) nodeKey [] [] graph dict words).2)
    []

theorem isWord_length (s : String) (dict : List String)
    (h : isWord s dict = true) : 3 ≤ s.length := by
  unfold isWord at h
  by_cases hl : s.length < 3
  · rw [if_pos hl] at h
    cases h
  · omega

/-- Every neighbor is joined to the vertex by an edge. -/
theorem LBGraph.hasEdgeU_of_mem_neighbors (g : LBGraph) (k n : String)
    (h : n ∈ g.neighbors k) : g.hasEdgeU k n = true := by
  unfold neighbors at h
  unfold hasEdgeU
  rcases List.mem_append.mp h with hm | hm
  · obtain ⟨e, he, rfl⟩ := List.mem_map.mp hm
    have := List.mem_filter.mp he
    have h1 : e.1 = k := by simpa using this.2
    apply Bool.or_eq_true_iff.mpr
    left
    simp only [List.elem_eq_mem, decide_eq_true_eq]
    rw [← h1]
    exact this.1
  · obtain ⟨e, he, rfl⟩ := List.mem_map.mp hm
    have := List.mem_filter.mp he
    have h2 : e.2 = k := by simpa using this.2
    apply Bool.or_eq_true_iff.mpr
    right
    simp only [List.elem_eq_mem, decide_eq_true_eq]
    rw [← h2]
    exact this.1

/-- In a graph whose edges join existing nodes, neighbors are node keys. -/
theorem LBGraph.mem_keys_of_mem_neighbors (g : LBGraph) (k n : String)
    (hedge : ∀ e ∈ g.edges, e.1 ∈ g.keys ∧ e.2 ∈ g.keys)
    (h : n ∈ g.neighbors k) : n ∈ g.keys := by
  unfold neighbors at h
  rcases List.mem_append.mp h with hm | hm
  · obtain ⟨e, he, rfl⟩ := List.mem_map.mp hm
    exact (hedge e (List.mem_filter.mp he).1).2
  · obtain ⟨e, he, rfl⟩ := List.mem_map.mp hm
    exact (hedge e (List.mem_filter.mp he).1).1

/-- The stored value of an existing node satisfies any property enjoyed by
all stored values. -/
theorem LBGraph.nodeVal_mem (g : LBGraph) (k : String) (h : k ∈ g.keys) :
    ∃ kv ∈ g.nodes, kv.1 = k ∧ g.nodeVal k = kv.2 := by
  unfold keys at h
  obtain ⟨kv, hkv, rfl⟩ := List.mem_map.mp h
  have hsome : (g.nodes.find? (fun p => p.1 == kv.1)).isSome := by
    apply List.find?_isSome.mpr
    exact ⟨kv, hkv, by simp⟩
  obtain ⟨kv2, hfind⟩ := Option.isSome_iff_exists.mp hsome
  have hmem2 := List.mem_of_find?_eq_some hfind
  have hpred := List.find?_some hfind
  refine ⟨kv2, hmem2, by simpa using hpred, ?_⟩
  unfold nodeVal
  rw [hfind]
  rfl

theorem string_foldl_append_length (l : List String) :
    ∀ acc : String,
      (l.foldl (fun r s => r ++ s) acc).length =
        acc.length + (l.map String.length).sum := by
  induction l with
  | nil => intro acc; simp
  | cons a l ih =>
      intro acc
      show (l.foldl (fun r s => r ++ s) (acc ++ a)).length = _
      rw [ih (acc ++ a), String.length_append]
      simp
      omega

theorem string_join_length (l : List String) :
    (String.join l).length = (l.map String.length).sum := by
  show (l.foldl (fun r s => r ++ s) "").length = _
  rw [string_foldl_append_length]
  simp

theorem sum_map_ones {α : Type} (l : List α) (f : α → Nat)
    (h : ∀ x ∈ l, f x = 1) : (l.map f).sum = l.length := by
  induction l with
  | nil => rfl
  | cons a l ih =>
      simp only [List.map_cons, List.sum_cons, List.length_cons,
        h a (List.mem_cons_self a l)]
      rw [ih (fun x hx => h x (List.mem_cons_of_mem a hx))]
      omega

/-- Words recorded by the depth-first search, beyond those already in the
accumulator, are dictionary words spelled along an adjacency-respecting
walk of existing graph nodes. -/
def soundWord (g : LBGraph) (dict : List String) (w : LetterBoxWord) : Prop :=
  isWord w.word dict = true ∧
  w.word = String.join (w.nodeKeys.map (fun k => g.nodeVal k)) ∧
  List.Chain' (fun a b => g.hasEdgeU a b = true) w.nodeKeys ∧
  (∀ k ∈ w.nodeKeys, k ∈ g.keys)

theorem foldl_state_preserves {σ α β : Type} (proj : σ → List β)
    (f : σ → α → σ) (P : β → Prop) (l : List α)
    (hf : ∀ st x, x ∈ l → ∀ w ∈ proj (f st x), w ∈ proj st ∨ P w) :
    ∀ st, ∀ w ∈ proj (l.foldl f st), w ∈ proj st ∨ P w := by
  induction l with
  | nil => exact fun st w hw => Or.inl hw
  | cons x xs ih =>
      intro st w hw
      rcases ih (fun st y hy => hf st y (List.mem_cons_of_mem x hy)) (f st x) w hw
        with hmem | hp
      · exact hf st x (List.mem_cons_self x xs) w hmem
      · exact Or.inr hp

theorem visitNode_sound (g : LBGraph) (dict : List String)
    (hedge : ∀ e ∈ g.edges, e.1 ∈ g.keys ∧ e.2 ∈ g.keys) :
    ∀ (fuel : Nat) (nodeKey : String) (path seen : List String)
      (words : List LetterBoxWord),
      List.Chain' (fun a b => g.hasEdgeU a b = true) (path ++ [nodeKey]) →
      (∀ k ∈ path ++ [nodeKey], k ∈ g.keys) →
      ∀ w ∈ (visitNode fuel nodeKey path seen g dict words).2,
        w ∈ words ∨ soundWord g dict w := by
  intro fuel
  induction fuel with
  | zero => exact fun nodeKey path seen words _ _ w hw => Or.inl hw
  | succ fuel ih =>
      intro nodeKey path seen words hchain hkeys w hw
      rw [visitNode] at hw
      by_cases hseen :
          seen.contains (String.intercalate " " (path ++ [nodeKey])) = true
      · rw [if_pos hseen] at hw
        exact Or.inl hw
      · rw [if_neg hseen] at hw
        set pre := String.join ((path ++ [nodeKey]).map (fun k => g.nodeVal k))
          with hpre
        have hwords2 : ∀ v ∈ (if isWord pre dict then
            words ++ [⟨pre, path ++ [nodeKey]⟩] else words),
            v ∈ words ∨ soundWord g dict v := by
          intro v hv
          by_cases hiw : isWord pre dict = true
          · rw [if_pos hiw] at hv
            rcases List.mem_append.mp hv with hv2 | hv2
            · exact Or.inl hv2
            · rcases List.mem_singleton.mp hv2 with rfl
              exact Or.inr ⟨hiw, rfl, hchain, hkeys⟩
          · rw [if_neg hiw] at hv
            exact Or.inl hv
        by_cases hip : isPrefixInTrie pre dict = true
        · rw [if_pos hip] at hw
          have hstep : ∀ (st : List String × List LetterBoxWord) n,
              n ∈ g.neighbors nodeKey →
              ∀ v ∈ (visitNode fuel n (path ++ [nodeKey]) st.1 g dict st.2).2,
                v ∈ st.2 ∨ soundWord g dict v := by
            intro st n hn v hv
            have hchain2 : List.Chain'
                (fun a b => g.hasEdgeU a b = true) ((path ++ [nodeKey]) ++ [n]) := by
              rw [List.chain'_append]
              refine ⟨hchain, List.chain'_singleton n, ?_⟩
              intro x hx y hy
              rw [List.getLast?_concat] at hx
              rcases Option.mem_some_iff.mp hx with rfl
              rcases Option.mem_some_iff.mp (by simpa using hy) with rfl
              exact LBGraph.hasEdgeU_of_mem_neighbors g _ _ hn
            have hkeys2 : ∀ k ∈ (path ++ [nodeKey]) ++ [n], k ∈ g.keys := by
              intro k hk
              rcases List.mem_append.mp hk with hk2 | hk2
              · exact hkeys k hk2
              · rcases List.mem_singleton.mp hk2 with rfl
                exact LBGraph.mem_keys_of_mem_neighbors g nodeKey k hedge hn
            exact ih n (path ++ [nodeKey]) st.1 st.2 hchain2 hkeys2 v hv
          have := foldl_state_preserves Prod.snd
            (fun st neighborKey =>
              visitNode fuel neighborKey (path ++ [nodeKey]) st.1 g dict st.2)
            (soundWord g dict) (g.neighbors nodeKey)
            (fun st x hx v hv => hstep st x hx v hv) _ w hw
          rcases this with hmem | hp
          · exact hwords2 w hmem
          · exact Or.inr hp
        · rw [if_neg hip] at hw
          exact hwords2 w hw

/-- C7: every Word produced by the Word Finder on a well-formed letter
graph — every stored letter is a single character and every edge joins
existing nodes, as holds for every graph built from a box of
single-character letters — has text length equal to its node-key count,
consecutive node keys adjacent in the letter graph, and text length at
least 3. -/
theorem findWords_sound (dict : List String) (g : LBGraph)
    (hval : ∀ kv ∈ g.nodes, (Prod.snd kv).length = 1)
    (hedge : ∀ e ∈ g.edges, e.1 ∈ g.keys ∧ e.2 ∈ g.keys) :
    ∀ w ∈ findWords dict g,
      w.word.length = w.nodeKeys.length ∧
      List.Chain' (fun a b => g.hasEdgeU a b = true) w.nodeKeys ∧
      3 ≤ w.word.length := by
  intro w hw
  have hsound : w ∈ ([] : List LetterBoxWord) ∨ soundWord g dict w := by
    refine foldl_state_preserves id
      (fun words nodeKey =>
        (visitNode (maxWordLen dict + 2) nodeKey [] [] g dict words).2)
      (soundWord g dict) g.keys ?_ [] w ?_
    · intro st x hx v hv
      exact visitNode_sound g dict hedge (maxWordLen dict + 2) x [] [] st
        (by simpa using List.chain'_singleton x)
        (by intro k hk; rcases List.mem_singleton.mp (by simpa using hk) with rfl
            exact hx) v hv
    · exact hw
  rcases hsound with hmem | hs
  · cases hmem
  · obtain ⟨hiw, hword, hchain, hkeys⟩ := hs
    refine ⟨?_, hchain, isWord_length _ _ hiw⟩
    rw [hword, string_join_length, List.map_map]
    apply sum_map_ones
    intro k hk
    obtain ⟨kv, hkv, hfst, hval2⟩ := LBGraph.nodeVal_mem g k (hkeys k hk)
    show (g.nodeVal k).length = 1
    rw [hval2]
    exact hval kv hkv

theorem LBGraph.nodes_setNode_subset (g : LBGraph) (k v : String)
    (kv : String × String) (h : kv ∈ (g.setNode k v).nodes) :
    kv ∈ g.nodes ∨ kv = (k, v) := by
  unfold setNode at h
  by_cases hc : g.keys.contains k
  · rw [if_pos hc] at h
    obtain ⟨p, hp, hpe⟩ := List.mem_map.mp h
    by_cases hpk : p.1 = k
    · right
      rw [← hpe]
      simp [hpk]
    · left
      rw [← hpe]
      simpa [hpk] using hp
  · rw [if_neg hc] at h
    rcases List.mem_append.mp h with hm | hm
    · exact Or.inl hm
    · exact Or.inr (List.mem_singleton.mp hm)

theorem LBGraph.edges_setEdgeU_subset (g : LBGraph) (a b : String)
    (e : String × String) (h : e ∈ (g.setEdgeU a b).edges) :
    e ∈ g.edges ∨ e = (a, b) := by
  unfold setEdgeU at h
  by_cases hc : (g.edges.contains (a, b) || g.edges.contains (b, a)) = true
  · rw [if_pos hc] at h
    exact Or.inl h
  · rw [if_neg hc] at h
    rcases List.mem_append.mp h with hm | hm
    · exact Or.inl hm
    · exact Or.inr (List.mem_singleton.mp hm)

theorem LBGraph.nodes_foldl_subset (ops : List BoxOp) (g : LBGraph)
    (kv : String × String) (h : kv ∈ (ops.foldl applyBoxOp g).nodes) :
    kv ∈ g.nodes ∨ ∃ op ∈ ops, kv = (op.k1, op.v1) ∨ kv = (op.k2, op.v2) := by
  induction ops generalizing g with
  | nil => exact Or.inl h
  | cons op ops ih =>
      rw [List.foldl_cons] at h
      rcases ih (applyBoxOp g op) h with hm | ⟨op2, hop2, he⟩
      · unfold applyBoxOp at hm
        have hm2 : kv ∈ ((g.setNode op.k1 op.v1).setNode op.k2 op.v2).nodes := by
          have : (((g.setNode op.k1 op.v1).setNode op.k2 op.v2).setEdgeU
              op.k1 op.k2).nodes =
              ((g.setNode op.k1 op.v1).setNode op.k2 op.v2).nodes := by
            unfold setEdgeU
            split <;> rfl
          rw [this] at hm
          exact hm
        rcases nodes_setNode_subset _ _ _ _ hm2 with hm3 | he2
        · rcases nodes_setNode_subset _ _ _ _ hm3 with hm4 | he3
          · exact Or.inl hm4
          · exact Or.inr ⟨op, List.mem_cons_self op ops, Or.inl he3⟩
        · exact Or.inr ⟨op, List.mem_cons_self op ops, Or.inr he2⟩
      · exact Or.inr ⟨op2, List.mem_cons_of_mem op hop2, he⟩

theorem LBGraph.edges_foldl_subset (ops : List BoxOp) (g : LBGraph)
    (e : String × String) (h : e ∈ (ops.foldl applyBoxOp g).edges) :
    e ∈ g.edges ∨ ∃ op ∈ ops, e = (op.k1, op.k2) := by
  induction ops generalizing g with
  | nil => exact Or.inl h
  | cons op ops ih =>
      rw [List.foldl_cons] at h
      rcases ih (applyBoxOp g op) h with hm | ⟨op2, hop2, he⟩
      · unfold applyBoxOp at hm
        rcases edges_setEdgeU_subset _ op.k1 op.k2 e hm with hm2 | he2
        · rw [edges_setNode, edges_setNode] at hm2
          exact Or.inl hm2
        · exact Or.inr ⟨op, List.mem_cons_self op ops, he2⟩
      · exact Or.inr ⟨op2, List.mem_cons_of_mem op hop2, he⟩

/-- Every stored node of a letter-box graph is an occurrence key holding
the occurrence's letter. -/
theorem createLetterBoxGraph_nodes_occ (sides : List (List String))
    (kv : String × String) (h : kv ∈ (createLetterBoxGraph sides).nodes) :
    ∃ i li c, occAt sides i li c ∧ kv = (letterKey i li c, c) := by
  rcases LBGraph.nodes_foldl_subset _ _ kv h with hnil | ⟨op, hop, he⟩
  · cases hnil
  · obtain ⟨i, j, s1, s2, li, lj, c1, c2, hlt, hgi, hgj, hgli, hglj, rfl⟩ :=
      (mem_boxOps_iff sides op).mp hop
    rcases he with rfl | rfl
    · exact ⟨i, li, c1, ⟨s1, hgi, hgli⟩, rfl⟩
    · exact ⟨j, lj, c2, ⟨s2, hgj, hglj⟩, rfl⟩

/-- Every edge of a letter-box graph joins existing nodes. -/
theorem createLetterBoxGraph_edges_wf (sides : List (List String))
    (e : String × String) (h : e ∈ (createLetterBoxGraph sides).edges) :
    e.1 ∈ (createLetterBoxGraph sides).keys ∧
      e.2 ∈ (createLetterBoxGraph sides).keys := by
  rcases LBGraph.edges_foldl_subset _ _ e h with hnil | ⟨op, hop, rfl⟩
  · cases hnil
  · constructor
    · exact (createLetterBoxGraph_mem_keys sides _).mpr ⟨op, hop, Or.inl rfl⟩
    · exact (createLetterBoxGraph_mem_keys sides _).mpr ⟨op, hop, Or.inr rfl⟩

/-- A letter-box graph built from single-character letters satisfies the
well-formedness hypotheses of the word-finder soundness theorem. -/
theorem createLetterBoxGraph_wellFormed (sides : List (List String))
    (hletters : ∀ s ∈ sides, ∀ c ∈ s, c.length = 1) :
    (∀ kv ∈ (createLetterBoxGraph sides).nodes, (Prod.snd kv).length = 1) ∧
    (∀ e ∈ (createLetterBoxGraph sides).edges,
      e.1 ∈ (createLetterBoxGraph sides).keys ∧
        e.2 ∈ (createLetterBoxGraph sides).keys) := by
  constructor
  · intro kv hkv
    obtain ⟨i, li, c, ⟨s, hgs, hgc⟩, rfl⟩ :=
      createLetterBoxGraph_nodes_occ sides kv hkv
    obtain ⟨hi, hs⟩ := List.getElem?_eq_some.mp hgs
    obtain ⟨hli, hc⟩ := List.getElem?_eq_some.mp hgc
    have hsmem : s ∈ sides := hs ▸ List.getElem_mem hi
    have hcmem : c ∈ s := hc ▸ List.getElem_mem hli
    exact hletters s hsmem c hcmem
  · exact createLetterBoxGraph_edges_wf sides

/-- Witness for the word-finder soundness theorem: a concrete two-by-two
box and the dictionary ["aca"]. -/
theorem findWords_sound_witness :
    ((∀ kv ∈ (createLetterBoxGraph [["a", "b"], ["c", "d"]]).nodes,
        (Prod.snd kv).length = 1) ∧
      (∀ e ∈ (createLetterBoxGraph [["a", "b"], ["c", "d"]]).edges,
        e.1 ∈ (createLetterBoxGraph [["a", "b"], ["c", "d"]]).keys ∧
          e.2 ∈ (createLetterBoxGraph [["a", "b"], ["c", "d"]]).keys)) ∧
    (∀ w ∈ findWords ["aca"] (createLetterBoxGraph [["a", "b"], ["c", "d"]]),
      w.word.length = w.nodeKeys.length ∧
      List.Chain' (fun a b =>
        (createLetterBoxGraph [["a", "b"], ["c", "d"]]).hasEdgeU a b = true)
        w.nodeKeys ∧
      3 ≤ w.word.length) :=
  ⟨⟨by decide, by decide⟩,
   findWords_sound ["aca"] (createLetterBoxGraph [["a", "b"], ["c", "d"]])
     (by decide) (by decide)⟩

/-- Model of a directed graphlib graph as used by createWordGraph and the
solution search: nodes store LetterBoxWord values under string keys, edges
are directed key pairs recorded once. -/
structure WGraph where
  nodes : List (String × LetterBoxWord)
  edges : List (String × String)
deriving DecidableEq, Repr

/-- The node keys, in insertion order (graphlib nodes()). -/
def WGraph.keys (g : WGraph) : List String := g.nodes.map Prod.fst

/-- graphlib setNode on the directed graph. -/
def WGraph.setNode (g : WGraph) (k : String) (v : LetterBoxWord) : WGraph :=
  if g.keys.contains k then
    { g with nodes := g.nodes.map (fun p => if p.1 == k then (k, v) else p) }
  else { g with nodes := g.nodes ++ [(k, v)] }

/-- graphlib setEdge on the directed graph: record each ordered pair once. -/
def WGraph.setEdgeD (g : WGraph) (a b : String) : WGraph :=
  if g.edges.contains (a, b) then g
  else { g with edges := g.edges ++ [(a, b)] }

/-- graphlib node(k): the stored word; a missing key behaves like a word
with no text and no node keys (undefined contributes no letters and no
node keys where the search reads it). -/
def WGraph.nodeVal (g : WGraph) (k : String) : LetterBoxWord :=
  ((g.nodes.find? (fun p => p.1 == k)).map Prod.snd).getD ⟨ "", []⟩

/-- graphlib successors(k) on the directed graph. -/
def WGraph.successors (g : WGraph) (k : String) : List String :=
  (g.edges.filter (fun e => e.1 == k)).map Prod.snd

/-- word.nodeKeys[0] (src/index.ts line 66); JavaScript indexing of an
empty array yields undefined, modelled by a sentinel key. -/
def headKey (w : LetterBoxWord) : String := w.nodeKeys.headD "undefined"

/-- word.nodeKeys[word.nodeKeys.length - 1] (line 67), same convention. -/
def lastKey (w : LetterBoxWord) : String := w.nodeKeys.getLast?.getD "undefined"

/-- word.nodeKeys.join(the two-character arrow separator), the node key a
word is stored under in the word graph (lines 85 and 87). -/
def joinKey (w : LetterBoxWord) : String := String.intercalate "->" w.nodeKeys

/-- JavaScript Map with list values: lookup by first matching key. -/
def lookupMulti : List (String × List LetterBoxWord) → String → List LetterBoxWord
  | [], _ => []
  | p :: m, k => if p.1 == k then p.2 else lookupMulti m k

/-- Append w to the entry of key k, creating the entry if missing (the
has/set/push sequence of src/index.ts lines 69-77). -/
def insertMulti (m : List (String × List LetterBoxWord)) (k : String)
    (w : LetterBoxWord) : List (String × List LetterBoxWord) :=
  if (m.map Prod.fst).contains k then
    m.map (fun p => if p.1 == k then (k, p.2 ++ [w]) else p)
  else m ++ [(k, [w])]

/-- The one-pass construction of startMap and endMap (lines 65-78). -/
def buildMaps (words : List LetterBoxWord) :
    List (String × List LetterBoxWord) × List (String × List LetterBoxWord) :=
  words.foldl
    (fun maps w =>
      (insertMulti maps.1 (headKey w) w, insertMulti maps.2 (lastKey w) w))
    ([], [])

/-- JavaScript Set construction: keep the first occurrence of each key
(line 80). -/
def firstDedup (l : List String) : List String :=
  l.foldl (fun acc x => if acc.contains x then acc else acc ++ [x]) []

/-- The (startWord, endWord) pairs visited by the nested loops of
createWordGraph (lines 83-96), in program order. -/
def wordPairs (words : List LetterBoxWord) :
    List (LetterBoxWord × LetterBoxWord) :=
  let maps := buildMaps words
  (firstDedup ((maps.1.map Prod.fst) ++ (maps.2.map Prod.fst))).flatMap
    (fun key =>
      (lookupMulti maps.1 key).flatMap (fun startWord =>
        (lookupMulti maps.2 key).map (fun endWord => (startWord, endWord))))

/-- The body of the innermost loop (lines 87-94): store both words, then
add the edge from the ending word to the starting word unless the two
words carry the same node-sequence key. -/
def applyWordPair (g : WGraph) (se : LetterBoxWord × LetterBoxWord) : WGraph :=
  let g2 := (g.setNode (joinKey se.1) se.1).setNode (joinKey se.2) se.2
  if joinKey se.1 != joinKey se.2 then g2.setEdgeD (joinKey se.2) (joinKey se.1)
  else g2

/-- createWordGraph (src/index.ts lines 61-100). -/
def createWordGraph (words : List LetterBoxWord) : WGraph :=
  (wordPairs words).foldl applyWordPair ⟨[], []⟩

theorem lookupMulti_eq_nil (m : List (String × List LetterBoxWord)) (k : String)
    (h : k ∉ m.map Prod.fst) : lookupMulti m k = [] := by
  induction m with
  | nil => rfl
  | cons p m ih =>
      have hp : p.1 ≠ k := by
        intro he
        exact h (by simp [he])
      show (if p.1 == k then p.2 else lookupMulti m k) = []
      rw [if_neg (by simp [hp])]
      exact ih (fun hm => h (List.mem_cons_of_mem _ hm))

theorem lookupMulti_map_update_ne (m : List (String × List LetterBoxWord))
    (k k' : String) (w : LetterBoxWord) (hne : k ≠ k') :
    lookupMulti
        (m.map (fun p => if p.1 == k then (k, p.2 ++ [w]) else p)) k' =
      lookupMulti m k' := by
  induction m with
  | nil => rfl
  | cons p m ih =>
      rw [List.map_cons]
      by_cases hp : p.1 = k
      · have he : (if p.1 == k then (k, p.2 ++ [w]) else p) = (k, p.2 ++ [w]) := by
          simp [hp]
        rw [he]
        show (if k == k' then p.2 ++ [w] else _) = _
        rw [if_neg (by simp [hne]), ih]
        show _ = if p.1 == k' then p.2 else lookupMulti m k'
        rw [if_neg (by simp [hp]; exact hne)]
      · have he : (if p.1 == k then (k, p.2 ++ [w]) else p) = p := by
          simp [hp]
        rw [he]
        show (if p.1 == k' then p.2 else _) = (if p.1 == k' then p.2 else _)
        by_cases hpk : p.1 = k'
        · rw [if_pos (by simp [hpk]), if_pos (by simp [hpk])]
        · rw [if_neg (by simp [hpk]), if_neg (by simp [hpk]), ih]

theorem lookupMulti_map_update_eq (m : List (String × List LetterBoxWord))
    (k : String) (w : LetterBoxWord) (hmem : k ∈ m.map Prod.fst) :
    lookupMulti
        (m.map (fun p => if p.1 == k then (k, p.2 ++ [w]) else p)) k =
      lookupMulti m k ++ [w] := by
  induction m with
  | nil => cases hmem
  | cons p m ih =>
      rw [List.map_cons]
      by_cases hp : p.1 = k
      · have he : (if p.1 == k then (k, p.2 ++ [w]) else p) = (k, p.2 ++ [w]) := by
          simp [hp]
        rw [he]
        show (if k == k then p.2 ++ [w] else _) = _
        rw [if_pos (by simp)]
        show _ = (if p.1 == k then p.2 else lookupMulti m k) ++ [w]
        rw [if_pos (by simp [hp])]
      · have he : (if p.1 == k then (k, p.2 ++ [w]) else p) = p := by
          simp [hp]
        rw [he]
        have hmem2 : k ∈ m.map Prod.fst := by
          rw [List.map_cons] at hmem
          rcases List.mem_cons.mp hmem with he2 | hm
          · exact absurd he2.symm hp
          · exact hm
        show (if p.1 == k then p.2 else _) = _
        rw [if_neg (by simp [hp]), ih hmem2]
        show _ = (if p.1 == k then p.2 else lookupMulti m k) ++ [w]
        rw [if_neg (by simp [hp])]

theorem lookupMulti_append_single (m : List (String × List LetterBoxWord))
    (k k' : String) (l : List LetterBoxWord) :
    lookupMulti (m ++ [(k, l)]) k' =
      if k' ∈ m.map Prod.fst then lookupMulti m k'
      else if k == k' then l else [] := by
  induction m with
  | nil =>
      show (if k == k' then l else []) = _
      have h0 : ¬ k' ∈ List.map Prod.fst ([] : List (String × List LetterBoxWord)) := by
        simp
      rw [if_neg h0]
  | cons p m ih =>
      show (if p.1 == k' then p.2 else lookupMulti (m ++ [(k, l)]) k') = _
      by_cases hp : p.1 = k'
      · have hmem : k' ∈ List.map Prod.fst (p :: m) := by
          rw [List.map_cons, hp]
          exact List.mem_cons_self _ _
        rw [if_pos (by simp [hp]), if_pos hmem]
        show _ = if p.1 == k' then p.2 else lookupMulti m k'
        rw [if_pos (by simp [hp])]
      · rw [if_neg (by simp [hp]), ih]
        by_cases hk' : k' ∈ m.map Prod.fst
        · have hmem : k' ∈ List.map Prod.fst (p :: m) := by
            rw [List.map_cons]
            exact List.mem_cons_of_mem _ hk'
          rw [if_pos hk', if_pos hmem]
          show _ = if p.1 == k' then p.2 else lookupMulti m k'
          rw [if_neg (by simp [hp])]
        · have hmem : ¬ k' ∈ List.map Prod.fst (p :: m) := by
            rw [List.map_cons]
            intro hm
            rcases List.mem_cons.mp hm with he | hm2
            · exact hp he.symm
            · exact hk' hm2
          rw [if_neg hk', if_neg hmem]

theorem lookupMulti_insertMulti (m : List (String × List LetterBoxWord))
    (k k' : String) (w : LetterBoxWord) :
    lookupMulti (insertMulti m k w) k' =
      lookupMulti m k' ++ (if k == k' then [w] else []) := by
  unfold insertMulti
  by_cases hc : k ∈ m.map Prod.fst
  · rw [if_pos (by simp [hc])]
    by_cases hk : k = k'
    · subst hk
      rw [lookupMulti_map_update_eq m k w hc, if_pos (by simp)]
    · rw [lookupMulti_map_update_ne m k k' w hk, if_neg (by simp [hk])]
      simp
  · rw [if_neg (by simp [hc]), lookupMulti_append_single]
    by_cases hk' : k' ∈ m.map Prod.fst
    · rw [if_pos hk']
      have hne : (k == k') = false := by
        by_cases h : k = k'
        · exact absurd (h ▸ hk') hc
        · simp [h]
      rw [hne]
      simp
    · rw [if_neg hk', lookupMulti_eq_nil m k' hk']
      simp

theorem mem_keys_insertMulti (m : List (String × List LetterBoxWord))
    (k : String) (w : LetterBoxWord) (k' : String) :
    k' ∈ (insertMulti m k w).map Prod.fst ↔ k' ∈ m.map Prod.fst ∨ k' = k := by
  unfold insertMulti
  by_cases hc : k ∈ m.map Prod.fst
  · rw [if_pos (by simp [hc])]
    rw [List.map_map]
    have hfst : m.map (Prod.fst ∘ fun p => if p.1 == k then (k, p.2 ++ [w]) else p) =
        m.map Prod.fst := by
      refine List.map_congr_left ?_
      intro p _
      by_cases hp : p.1 = k
      · simp [Function.comp, hp]
      · simp [Function.comp, hp]
    rw [hfst]
    constructor
    · exact fun h => Or.inl h
    · rintro (h | rfl)
      · exact h
      · exact hc
  · rw [if_neg (by simp [hc]), List.map_append]
    simp

theorem mem_firstDedup (l : List String) (x : String) :
    x ∈ firstDedup l ↔ x ∈ l := by
  have haux : ∀ (l : List String) (acc : List String),
      x ∈ l.foldl (fun acc y => if acc.contains y then acc else acc ++ [y]) acc ↔
        x ∈ acc ∨ x ∈ l := by
    intro l
    induction l with
    | nil => intro acc; simp
    | cons y ys ih =>
        intro acc
        rw [List.foldl_cons, ih]
        by_cases hc : y ∈ acc
        · rw [if_pos (by simp [hc])]
          constructor
          · rintro (h | h)
            · exact Or.inl h
            · exact Or.inr (List.mem_cons_of_mem y h)
          · rintro (h | h)
            · exact Or.inl h
            · rcases List.mem_cons.mp h with rfl | h2
              · exact Or.inl hc
              · exact Or.inr h2
        · rw [if_neg (by simp [hc])]
          simp only [List.mem_append, List.mem_singleton, List.mem_cons]
          tauto
  have hfold := haux l []
  show x ∈ l.foldl (fun acc y => if acc.contains y then acc else acc ++ [y]) [] ↔
    x ∈ l
  rw [hfold]
  simp

theorem buildMaps_fold_lookup (words : List LetterBoxWord) :
    ∀ (ms me : List (String × List LetterBoxWord)) (k : String),
      lookupMulti
          ((words.foldl
            (fun maps w =>
              (insertMulti maps.1 (headKey w) w,
               insertMulti maps.2 (lastKey w) w)) (ms, me)).1) k =
        lookupMulti ms k ++ words.filter (fun w => headKey w == k) ∧
      lookupMulti
          ((words.foldl
            (fun maps w =>
              (insertMulti maps.1 (headKey w) w,
               insertMulti maps.2 (lastKey w) w)) (ms, me)).2) k =
        lookupMulti me k ++ words.filter (fun w => lastKey w == k) := by
  induction words with
  | nil => intro ms me k; simp
  | cons w ws ih =>
      intro ms me k
      rw [List.foldl_cons]
      obtain ⟨ih1, ih2⟩ :=
        ih (insertMulti ms (headKey w) w) (insertMulti me (lastKey w) w) k
      constructor
      · rw [ih1, lookupMulti_insertMulti, List.filter_cons, List.append_assoc]
        by_cases hh : headKey w = k
        · rw [if_pos (by simp [hh]), if_pos (by simp [hh])]
          simp
        · rw [if_neg (by simp [hh]), if_neg (by simp [hh])]
          simp
      · rw [ih2, lookupMulti_insertMulti, List.filter_cons, List.append_assoc]
        by_cases hh : lastKey w = k
        · rw [if_pos (by simp [hh]), if_pos (by simp [hh])]
          simp
        · rw [if_neg (by simp [hh]), if_neg (by simp [hh])]
          simp

/-- The finished startMap groups the words by first node key and the
finished endMap by last node key, in input order. -/
theorem buildMaps_lookup (words : List LetterBoxWord) (k : String) :
    lookupMulti (buildMaps words).1 k =
        words.filter (fun w => headKey w == k) ∧
    lookupMulti (buildMaps words).2 k =
        words.filter (fun w => lastKey w == k) := by
  have := buildMaps_fold_lookup words [] [] k
  simpa using this

theorem mem_keys_buildMaps_fold (words : List LetterBoxWord) :
    ∀ (ms me : List (String × List LetterBoxWord)) (k : String),
      (k ∈ ((words.foldl
          (fun maps w =>
            (insertMulti maps.1 (headKey w) w,
             insertMulti maps.2 (lastKey w) w)) (ms, me)).1).map Prod.fst ↔
        k ∈ ms.map Prod.fst ∨ ∃ w ∈ words, headKey w = k) ∧
      (k ∈ ((words.foldl
          (fun maps w =>
            (insertMulti maps.1 (headKey w) w,
             insertMulti maps.2 (lastKey w) w)) (ms, me)).2).map Prod.fst ↔
        k ∈ me.map Prod.fst ∨ ∃ w ∈ words, lastKey w = k) := by
  induction words with
  | nil => intro ms me k; simp
  | cons w ws ih =>
      intro ms me k
      rw [List.foldl_cons]
      obtain ⟨ih1, ih2⟩ :=
        ih (insertMulti ms (headKey w) w) (insertMulti me (lastKey w) w) k
      constructor
      · rw [ih1, mem_keys_insertMulti]
        constructor
        · rintro ((hm | rfl) | ⟨w2, hw2, hk2⟩)
          · exact Or.inl hm
          · exact Or.inr ⟨w, List.mem_cons_self w ws, rfl⟩
          · exact Or.inr ⟨w2, List.mem_cons_of_mem w hw2, hk2⟩
        · rintro (hm | ⟨w2, hw2, hk2⟩)
          · exact Or.inl (Or.inl hm)
          · rcases List.mem_cons.mp hw2 with rfl | hw3
            · exact Or.inl (Or.inr hk2.symm)
            · exact Or.inr ⟨w2, hw3, hk2⟩
      · rw [ih2, mem_keys_insertMulti]
        constructor
        · rintro ((hm | rfl) | ⟨w2, hw2, hk2⟩)
          · exact Or.inl hm
          · exact Or.inr ⟨w, List.mem_cons_self w ws, rfl⟩
          · exact Or.inr ⟨w2, List.mem_cons_of_mem w hw2, hk2⟩
        · rintro (hm | ⟨w2, hw2, hk2⟩)
          · exact Or.inl (Or.inl hm)
          · rcases List.mem_cons.mp hw2 with rfl | hw3
            · exact Or.inl (Or.inr hk2.symm)
            · exact Or.inr ⟨w2, hw3, hk2⟩

theorem mem_keys_buildMaps (words : List LetterBoxWord) (k : String) :
    (k ∈ ((buildMaps words).1).map Prod.fst ↔ ∃ w ∈ words, headKey w = k) ∧
    (k ∈ ((buildMaps words).2).map Prod.fst ↔ ∃ w ∈ words, lastKey w = k) := by
  have := mem_keys_buildMaps_fold words [] [] k
  simpa using this

/-- A (startWord, endWord) pair is visited exactly when both words belong
to the input and the start word begins at the node the end word ends at. -/
theorem mem_wordPairs (words : List LetterBoxWord) (s e : LetterBoxWord) :
    (s, e) ∈ wordPairs words ↔
      s ∈ words ∧ e ∈ words ∧ headKey s = lastKey e := by
  unfold wordPairs
  rw [List.mem_flatMap]
  constructor
  · rintro ⟨k, hk, hse⟩
    rw [List.mem_flatMap] at hse
    obtain ⟨s2, hs2, hse⟩ := hse
    rw [List.mem_map] at hse
    obtain ⟨e2, he2, heq⟩ := hse
    have hse1 : s = s2 := (congrArg Prod.fst heq).symm
    have hse2 : e = e2 := (congrArg Prod.snd heq).symm
    subst hse1
    subst hse2
    rw [(buildMaps_lookup words k).1] at hs2
    rw [(buildMaps_lookup words k).2] at he2
    have hs3 := List.mem_filter.mp hs2
    have he3 := List.mem_filter.mp he2
    refine ⟨hs3.1, he3.1, ?_⟩
    have h1 : headKey s = k := by simpa using hs3.2
    have h2 : lastKey e = k := by simpa using he3.2
    rw [h1, h2]
  · rintro ⟨hs, he, hk⟩
    refine ⟨headKey s, ?_, ?_⟩
    · rw [mem_firstDedup, List.mem_append]
      exact Or.inl ((mem_keys_buildMaps words (headKey s)).1.mpr ⟨s, hs, rfl⟩)
    · rw [List.mem_flatMap]
      refine ⟨s, ?_, ?_⟩
      · rw [(buildMaps_lookup words (headKey s)).1]
        exact List.mem_filter.mpr ⟨hs, by simp⟩
      · rw [List.mem_map]
        refine ⟨e, ?_, rfl⟩
        rw [(buildMaps_lookup words (headKey s)).2]
        exact List.mem_filter.mpr ⟨he, by simp [hk]⟩

theorem WGraph.setNode_edges (g : WGraph) (k : String) (v : LetterBoxWord) :
    (g.setNode k v).edges = g.edges := by
  unfold setNode
  split <;> rfl

theorem WGraph.mem_edges_setEdgeD (g : WGraph) (a b x y : String) :
    (x, y) ∈ (g.setEdgeD a b).edges ↔
      (x, y) ∈ g.edges ∨ (x = a ∧ y = b) := by
  unfold setEdgeD
  by_cases hc : g.edges.contains (a, b) = true
  · rw [if_pos hc]
    constructor
    · exact fun h => Or.inl h
    · rintro (h | ⟨rfl, rfl⟩)
      · exact h
      · simpa using hc
  · rw [if_neg hc]
    simp only [List.mem_append, List.mem_singleton, Prod.mk.injEq]

theorem mem_edges_applyWordPair (g : WGraph) (se : LetterBoxWord × LetterBoxWord)
    (x y : String) :
    (x, y) ∈ (applyWordPair g se).edges ↔
      (x, y) ∈ g.edges ∨
        (joinKey se.1 ≠ joinKey se.2 ∧ x = joinKey se.2 ∧ y = joinKey se.1) := by
  unfold applyWordPair
  by_cases hne : joinKey se.1 = joinKey se.2
  · rw [if_neg (by simp [hne])]
    rw [WGraph.setNode_edges, WGraph.setNode_edges]
    constructor
    · exact fun h => Or.inl h
    · rintro (h | ⟨hne2, _, _⟩)
      · exact h
      · exact absurd hne hne2
  · rw [if_pos (by simp [hne])]
    rw [WGraph.mem_edges_setEdgeD]
    rw [WGraph.setNode_edges, WGraph.setNode_edges]
    constructor
    · rintro (h | ⟨rfl, rfl⟩)
      · exact Or.inl h
      · exact Or.inr ⟨hne, rfl, rfl⟩
    · rintro (h | ⟨_, rfl, rfl⟩)
      · exact Or.inl h
      · exact Or.inr ⟨rfl, rfl⟩

theorem createWordGraph_mem_edges_fold
    (pairs : List (LetterBoxWord × LetterBoxWord)) (g : WGraph) (x y : String) :
    (x, y) ∈ (pairs.foldl applyWordPair g).edges ↔
      (x, y) ∈ g.edges ∨
        ∃ se ∈ pairs, joinKey se.1 ≠ joinKey se.2 ∧
          x = joinKey se.2 ∧ y = joinKey se.1 := by
  induction pairs generalizing g with
  | nil => simp
  | cons se pairs ih =>
      rw [List.foldl_cons, ih, mem_edges_applyWordPair]
      constructor
      · rintro ((hg | h1) | ⟨se2, hmem, h2⟩)
        · exact Or.inl hg
        · exact Or.inr ⟨se, List.mem_cons_self se pairs, h1⟩
        · exact Or.inr ⟨se2, List.mem_cons_of_mem se hmem, h2⟩
      · rintro (hg | ⟨se2, hmem, h2⟩)
        · exact Or.inl (Or.inl hg)
        · rcases List.mem_cons.mp hmem with rfl | hmem2
          · exact Or.inl (Or.inr h2)
          · exact Or.inr ⟨se2, hmem2, h2⟩

/-- Membership characterization of the word-graph edge list. -/
theorem createWordGraph_mem_edges (words : List LetterBoxWord) (x y : String) :
    (x, y) ∈ (createWordGraph words).edges ↔
      ∃ se ∈ wordPairs words, joinKey se.1 ≠ joinKey se.2 ∧
        x = joinKey se.2 ∧ y = joinKey se.1 := by
  unfold createWordGraph
  rw [createWordGraph_mem_edges_fold]
  constructor
  · rintro (hnil | h)
    · cases hnil
    · exact h
  · exact fun h => Or.inr h

/-- C8: in the word graph built from a word set with non-empty node-key
sequences and collision-free join keys (as holds for all words realized in
a letter box, whose node keys never contain the arrow separator), every
directed edge runs from a word whose last letter node equals the first
letter node of a distinct-by-node-sequence target word, and conversely
every such ordered pair of words receives an edge. -/
theorem createWordGraph_edges_correct (words : List LetterBoxWord)
    (hne : ∀ w ∈ words, w.nodeKeys ≠ [])
    (hinj : ∀ w1 ∈ words, ∀ w2 ∈ words,
      joinKey w1 = joinKey w2 → w1.nodeKeys = w2.nodeKeys) :
    (∀ e ∈ (createWordGraph words).edges,
        ∃ wa wb, wa ∈ words ∧ wb ∈ words ∧
          e = (joinKey wa, joinKey wb) ∧ lastKey wa = headKey wb ∧
          wa.nodeKeys ≠ wb.nodeKeys) ∧
    (∀ wa ∈ words, ∀ wb ∈ words,
        lastKey wa = headKey wb → wa.nodeKeys ≠ wb.nodeKeys →
        (joinKey wa, joinKey wb) ∈ (createWordGraph words).edges) := by
  constructor
  · rintro ⟨x, y⟩ he
    obtain ⟨se, hse, hjne, hx, hy⟩ :=
      (createWordGraph_mem_edges words x y).mp he
    obtain ⟨hs, hee, hk⟩ := (mem_wordPairs words se.1 se.2).mp (by
      have : (se.1, se.2) = se := rfl
      rw [this]
      exact hse)
    refine ⟨se.2, se.1, hee, hs, by rw [hx, hy], hk.symm, ?_⟩
    intro hkeys
    exact hjne (by unfold joinKey; rw [hkeys])
  · intro wa hwa wb hwb hk hkeys
    apply (createWordGraph_mem_edges words _ _).mpr
    refine ⟨(wb, wa), (mem_wordPairs words wb wa).mpr ⟨hwb, hwa, hk.symm⟩, ?_, rfl, rfl⟩
    intro hj
    exact hkeys ((hinj wb hwb wa hwa hj).symm ▸ rfl)

/-- hasNewNode (src/index.ts lines 204-214): adding the word's node keys
to the set of node keys already covered strictly grows the set. -/
def hasNewNode (word : LetterBoxWord) (seenWords : List LetterBoxWord) : Bool :=
  let seen := (seenWords.map (fun w => w.nodeKeys)).flatten
  decide (seen.dedup.length < (seen ++ word.nodeKeys).dedup.length)

/-- The distinct letter nodes covered by a chain of words, as the solution
search computes them (src/index.ts lines 186-188). -/
def chainCover (ws : List LetterBoxWord) : List String :=
  ((ws.map (fun w => w.nodeKeys)).flatten).dedup

/-- exploreWordGraph (src/index.ts lines 166-202), with an explicit fuel
argument bounding recursion depth.  Since every recursive call grows the
path by one entry and any call entered with more than 25 path entries
throws, the source recursion never exceeds depth 27; the fuel-exhaustion
branch returns a distinct error and is proved unreachable for sufficient
fuel (exploreWordGraph_fuel).  The thrown Error becomes an Except.error;
the mutable seenPaths set and solutions array are threaded through, and
the path is passed by value since the source restores it before every
non-throwing return. -/
def exploreWordGraph (fuel : Nat) (nodeKey : String) (path : List String)
    (graph : WGraph) (seenPaths : List String) (minNumNodes : Nat)
    (solutions : List LetterBoxSolution) :
    Except String (List String × List LetterBoxSolution) :=
  match fuel with
  | 0 => Except.error "fuel"
  | fuel + 1 =>
      if path.length > 25 then Except.error "too many paths"
      else if hasNewNode (graph.nodeVal nodeKey)
          (path.map (fun k => graph.nodeVal k)) = false then
        Except.ok (seenPaths, solutions)
      else
        let path2 := path ++ [nodeKey]
        let pathKey := String.join path2
        if seenPaths.contains pathKey then Except.ok (seenPaths, solutions)
        else
          let seen2 := seenPaths ++ [pathKey]
          let words := path2.map (fun k => graph.nodeVal k)
          let seenLetterNodes := ((words.map (fun w => w.nodeKeys)).flatten).dedup
          if seenLetterNodes.length ≥ minNumNodes then
            Except.ok (seen2, solutions ++ [⟨seenLetterNodes.length, words⟩])
          else
            (graph.successors nodeKey).foldlM
              (fun st neighborKey =>
                exploreWordGraph fuel neighborKey path2 graph st.1 minNumNodes
                  st.2)
              (seen2, solutions)

/-- findSolutions (src/index.ts lines 157-164): explore from every word
node with a fresh seen-path set and a shared solutions accumulator.  Fuel
30 exceeds the maximum possible recursion depth 27 (see
exploreWordGraph_fuel). -/
def findSolutions (wordGraph : WGraph) (minNumNodes : Nat) :
    Except String (List LetterBoxSolution) :=
  wordGraph.keys.foldlM
    (fun solutions nodeKey =>
      (exploreWordGraph 30 nodeKey [] wordGraph [] minNumNodes
          solutions).map (fun st => st.2))
    []

theorem foldlM_except_congr {σ α : Type} (f1 f2 : σ → α → Except String σ)
    (l : List α) (h : ∀ st x, x ∈ l → f1 st x = f2 st x) :
    ∀ st, l.foldlM f1 st = l.foldlM f2 st := by
  induction l with
  | nil => intro st; rfl
  | cons x xs ih =>
      intro st
      rw [List.foldlM_cons, List.foldlM_cons, h st x (List.mem_cons_self x xs)]
      cases hfx : f2 st x with
      | error e => rfl
      | ok st2 =>
          show xs.foldlM f1 st2 = xs.foldlM f2 st2
          exact ih (fun st y hy => h st y (List.mem_cons_of_mem x hy)) st2

/-- The fuel argument is irrelevant once it exceeds the residual depth
26 - path.length allowed by the hard cap: the embedding's behavior is the
source function's for all sufficient fuel. -/
theorem exploreWordGraph_fuel (f : Nat) :
    ∀ (g : Nat) (nodeKey : String) (path : List String) (graph : WGraph)
      (seen : List String) (minNumNodes : Nat) (sols : List LetterBoxSolution),
      26 - path.length < f → 26 - path.length < g →
      exploreWordGraph f nodeKey path graph seen minNumNodes sols =
        exploreWordGraph g nodeKey path graph seen minNumNodes sols := by
  induction f with
  | zero =>
      intro g nodeKey path graph seen minNumNodes sols hf _
      exact absurd hf (Nat.not_lt_zero _)
  | succ f ih =>
      intro g nodeKey path graph seen minNumNodes sols hf hg
      cases g with
      | zero => exact absurd hg (Nat.not_lt_zero _)
      | succ g =>
          show exploreWordGraph (f + 1) nodeKey path graph seen minNumNodes sols =
            exploreWordGraph (g + 1) nodeKey path graph seen minNumNodes sols
          rw [exploreWordGraph, exploreWordGraph]
          by_cases hlen : path.length > 25
          · rw [if_pos hlen, if_pos hlen]
          · rw [if_neg hlen, if_neg hlen]
            by_cases hnew : hasNewNode (graph.nodeVal nodeKey)
                (path.map (fun k => graph.nodeVal k)) = false
            · rw [if_pos hnew, if_pos hnew]
            · rw [if_neg hnew, if_neg hnew]
              by_cases hseen :
                  seen.contains (String.join (path ++ [nodeKey])) = true
              · rw [if_pos hseen, if_pos hseen]
              · rw [if_neg hseen, if_neg hseen]
                by_cases hrec :
                    ((((path ++ [nodeKey]).map
                      (fun k => graph.nodeVal k)).map
                        (fun w => w.nodeKeys)).flatten).dedup.length ≥
                      minNumNodes
                · rw [if_pos hrec, if_pos hrec]
                · rw [if_neg hrec, if_neg hrec]
                  apply foldlM_except_congr
                  intro st n _
                  apply ih
                  · have : path.length ≤ 25 := by omega
                    simp only [List.length_append, List.length_singleton]
                    omega
                  · have : path.length ≤ 25 := by omega
                    simp only [List.length_append, List.length_singleton]
                    omega

theorem foldlM_state_preserves {σ α β : Type} (proj : σ → List β)
    (f : σ → α → Except String σ) (P : β → Prop) (l : List α)
    (hf : ∀ st x, x ∈ l → ∀ st2, f st x = Except.ok st2 →
      ∀ b ∈ proj st2, b ∈ proj st ∨ P b) :
    ∀ st res, l.foldlM f st = Except.ok res → ∀ b ∈ proj res, b ∈ proj st ∨ P b := by
  induction l with
  | nil =>
      intro st res h b hb
      have h2 : (Except.ok st : Except String σ) = Except.ok res := h
      have h3 : st = res := by injection h2
      exact Or.inl (h3 ▸ hb)
  | cons x xs ih =>
      intro st res h b hb
      rw [List.foldlM_cons] at h
      cases hfx : f st x with
      | error e =>
          rw [hfx] at h
          exact Except.noConfusion h
      | ok st2 =>
          rw [hfx] at h
          have h2 : xs.foldlM f st2 = Except.ok res := h
          rcases ih (fun st y hy => hf st y (List.mem_cons_of_mem x hy)) st2 res
            h2 b hb with hm | hp
          · exact hf st x (List.mem_cons_self x xs) st2 hfx b hm
          · exact Or.inr hp

theorem exploreWordGraph_sol_length (fuel : Nat) :
    ∀ (nodeKey : String) (path : List String) (graph : WGraph)
      (seen : List String) (minNumNodes : Nat) (sols : List LetterBoxSolution)
      (res : List String × List LetterBoxSolution),
      exploreWordGraph fuel nodeKey path graph seen minNumNodes sols =
        Except.ok res →
      ∀ s ∈ res.2, s ∈ sols ∨ s.letterBoxWordList.length ≤ 26 := by
  induction fuel with
  | zero =>
      intro nodeKey path graph seen minNumNodes sols res h
      exact Except.noConfusion h
  | succ fuel ih =>
      intro nodeKey path graph seen minNumNodes sols res h
      rw [exploreWordGraph] at h
      by_cases hlen : path.length > 25
      · rw [if_pos hlen] at h
        exact Except.noConfusion h
      · rw [if_neg hlen] at h
        by_cases hnew : hasNewNode (graph.nodeVal nodeKey)
            (path.map (fun k => graph.nodeVal k)) = false
        · rw [if_pos hnew] at h
          have h2 : (seen, sols) = res := by injection h
          intro s hs
          exact Or.inl (by rw [← h2] at hs; exact hs)
        · rw [if_neg hnew] at h
          by_cases hseen : seen.contains (String.join (path ++ [nodeKey])) = true
          · rw [if_pos hseen] at h
            have h2 : (seen, sols) = res := by injection h
            intro s hs
            exact Or.inl (by rw [← h2] at hs; exact hs)
          · rw [if_neg hseen] at h
            by_cases hrec :
                (((((path ++ [nodeKey]).map
                  (fun k => graph.nodeVal k)).map
                    (fun w => w.nodeKeys)).flatten).dedup).length ≥
                  minNumNodes
            · rw [if_pos hrec] at h
              have h2 : (seen ++ [String.join (path ++ [nodeKey])],
                  sols ++ [⟨(((((path ++ [nodeKey]).map
                    (fun k => graph.nodeVal k)).map
                      (fun w => w.nodeKeys)).flatten).dedup).length,
                    (path ++ [nodeKey]).map (fun k => graph.nodeVal k)⟩]) =
                  res := by injection h
              intro s hs
              rw [← h2] at hs
              rcases List.mem_append.mp hs with hm | hm
              · exact Or.inl hm
              · rcases List.mem_singleton.mp hm with rfl
                right
                show ((path ++ [nodeKey]).map (fun k => graph.nodeVal k)).length ≤ 26
                rw [List.length_map, List.length_append, List.length_singleton]
                omega
            · rw [if_neg hrec] at h
              intro s hs
              exact foldlM_state_preserves Prod.snd
                (fun st neighborKey =>
                  exploreWordGraph fuel neighborKey (path ++ [nodeKey]) graph
                    st.1 minNumNodes st.2)
                (fun s => s.letterBoxWordList.length ≤ 26)
                (graph.successors nodeKey)
                (fun st x _ st2 hst2 b hb =>
                  ih x (path ++ [nodeKey]) graph st.1 minNumNodes st.2 st2 hst2
                    b hb)
                (seen ++ [String.join (path ++ [nodeKey])], sols) res h s hs

/-- C10: a run of findSolutions that returns normally records only chains
of at most 26 words: the depth guard throws whenever a call is entered
with more than 25 words already on the chain, and a recorded chain is the
entered chain plus the one word appended by the recording call. -/
theorem findSolutions_max_chain (wordGraph : WGraph) (minNumNodes : Nat)
    (sols : List LetterBoxSolution)
    (h : findSolutions wordGraph minNumNodes = Except.ok sols) :
    ∀ s ∈ sols, s.letterBoxWordList.length ≤ 26 := by
  intro s hs
  have hstep : ∀ (st : List LetterBoxSolution) (x : String),
      x ∈ wordGraph.keys → ∀ st2,
      (exploreWordGraph 30 x [] wordGraph [] minNumNodes st).map
          (fun st => st.2) = Except.ok st2 →
      ∀ b ∈ id st2, b ∈ id st ∨ b.letterBoxWordList.length ≤ 26 := by
    intro st x _ st2 hst2 b hb
    cases hex : exploreWordGraph 30 x [] wordGraph [] minNumNodes st with
    | error e =>
        rw [hex] at hst2
        exact Except.noConfusion hst2
    | ok res =>
        rw [hex] at hst2
        have h2 : res.2 = st2 := by
          have h3 : (Except.ok res.2 : Except String (List LetterBoxSolution)) =
              Except.ok st2 := hst2
          injection h3
        rcases exploreWordGraph_sol_length 30 x [] wordGraph [] minNumNodes st
          res hex b (by rw [h2]; exact hb) with hm | hp
        · exact Or.inl hm
        · exact Or.inr hp
  unfold findSolutions at h
  rcases foldlM_state_preserves (id)
    (fun solutions nodeKey =>
      (exploreWordGraph 30 nodeKey [] wordGraph [] minNumNodes
          solutions).map (fun st => st.2))
    (fun s => s.letterBoxWordList.length ≤ 26) wordGraph.keys
    hstep [] sols h s hs with hm | hp
  · cases hm
  · exact hp

/-- A word with text ab traversing letter nodes k1 then k2. -/
def wAB : LetterBoxWord := ⟨ "ab", ["k1", "k2"]⟩

/-- A word with text ba traversing letter nodes k2 then k1. -/
def wBA : LetterBoxWord := ⟨ "ba", ["k2", "k1"]⟩

/-- Witness for the chain-length bound at a concrete two-word graph. -/
theorem findSolutions_max_chain_witness :
    findSolutions (createWordGraph [wAB, wBA]) 2 =
      Except.ok [⟨2, [wAB]⟩, ⟨2, [wBA]⟩] ∧
    ∀ s ∈ [(⟨2, [wAB]⟩ : LetterBoxSolution), ⟨2, [wBA]⟩],
      s.letterBoxWordList.length ≤ 26 :=
  ⟨rfl, findSolutions_max_chain (createWordGraph [wAB, wBA]) 2 _ rfl⟩

theorem nodup_subset_length (l l2 : List String) (hn : l.Nodup)
    (hsub : l ⊆ l2) : l.length ≤ l2.length :=
  List.Subperm.length_le (List.subperm_of_subset hn hsub)

/-- What the search records when it accepts: full coverage, exactly, and
no proper prefix of the chain already covered everything. -/
def validSolution (minNumNodes : Nat) (s : LetterBoxSolution) : Prop :=
  s.numSeenLetterNodes = minNumNodes ∧
  (chainCover s.letterBoxWordList).length = minNumNodes ∧
  ∀ j < s.letterBoxWordList.length,
    (chainCover (s.letterBoxWordList.take j)).length < minNumNodes

theorem exploreWordGraph_record_sound (graph : WGraph) (allKeys : List String)
    (minNumNodes : Nat)
    (hsub : ∀ k k2, k2 ∈ (graph.nodeVal k).nodeKeys → k2 ∈ allKeys)
    (hnodup : allKeys.Nodup) (hmin : minNumNodes = allKeys.length) :
    ∀ (fuel : Nat) (nodeKey : String) (path seen : List String)
      (sols : List LetterBoxSolution)
      (res : List String × List LetterBoxSolution),
      (∀ j, 1 ≤ j → j ≤ path.length →
        (chainCover ((path.take j).map (fun k => graph.nodeVal k))).length <
          minNumNodes) →
      exploreWordGraph fuel nodeKey path graph seen minNumNodes sols =
        Except.ok res →
      ∀ s ∈ res.2, s ∈ sols ∨ validSolution minNumNodes s := by
  intro fuel
  induction fuel with
  | zero =>
      intro nodeKey path seen sols res _ h
      exact Except.noConfusion h
  | succ fuel ih =>
      intro nodeKey path seen sols res hpref h
      rw [exploreWordGraph] at h
      by_cases hlen : path.length > 25
      · rw [if_pos hlen] at h
        exact Except.noConfusion h
      · rw [if_neg hlen] at h
        by_cases hnew : hasNewNode (graph.nodeVal nodeKey)
            (path.map (fun k => graph.nodeVal k)) = false
        · rw [if_pos hnew] at h
          have h2 : (seen, sols) = res := by injection h
          intro s hs
          exact Or.inl (by rw [← h2] at hs; exact hs)
        · rw [if_neg hnew] at h
          by_cases hseen : seen.contains (String.join (path ++ [nodeKey])) = true
          · rw [if_pos hseen] at h
            have h2 : (seen, sols) = res := by injection h
            intro s hs
            exact Or.inl (by rw [← h2] at hs; exact hs)
          · rw [if_neg hseen] at h
            have hcov_le :
                (((((path ++ [nodeKey]).map
                  (fun k => graph.nodeVal k)).map
                    (fun w => w.nodeKeys)).flatten).dedup).length ≤
                  minNumNodes := by
              rw [hmin]
              apply nodup_subset_length
              · exact List.nodup_dedup _
              · intro x hx
                have hx2 := List.mem_dedup.mp hx
                obtain ⟨l, hl, hxl⟩ := List.mem_flatten.mp hx2
                obtain ⟨w, hw, rfl⟩ := List.mem_map.mp hl
                obtain ⟨k, _, rfl⟩ := List.mem_map.mp hw
                exact hsub k x hxl
            have hcov_pos :
                1 ≤ (((((path ++ [nodeKey]).map
                  (fun k => graph.nodeVal k)).map
                    (fun w => w.nodeKeys)).flatten).dedup).length := by
              have hnew2 : hasNewNode (graph.nodeVal nodeKey)
                  (path.map (fun k => graph.nodeVal k)) = true := by
                cases hb : hasNewNode (graph.nodeVal nodeKey)
                    (path.map (fun k => graph.nodeVal k)) with
                | true => rfl
                | false => exact absurd hb hnew
              simp only [hasNewNode, decide_eq_true_eq] at hnew2
              have hflat :
                  ((((path ++ [nodeKey]).map (fun k => graph.nodeVal k)).map
                    (fun w => w.nodeKeys)).flatten) =
                  (((path.map (fun k => graph.nodeVal k)).map
                    (fun w => w.nodeKeys)).flatten) ++
                    (graph.nodeVal nodeKey).nodeKeys := by
                simp
              rw [hflat]
              omega
            have htake : ∀ j, j ≤ path.length →
                ((path ++ [nodeKey]).take j) = path.take j := by
              intro j hj
              rw [List.take_append_eq_append_take,
                Nat.sub_eq_zero_of_le hj, List.take_zero, List.append_nil]
            by_cases hrec :
                (((((path ++ [nodeKey]).map
                  (fun k => graph.nodeVal k)).map
                    (fun w => w.nodeKeys)).flatten).dedup).length ≥
                  minNumNodes
            · rw [if_pos hrec] at h
              have h2 : (seen ++ [String.join (path ++ [nodeKey])],
                  sols ++ [⟨(((((path ++ [nodeKey]).map
                    (fun k => graph.nodeVal k)).map
                      (fun w => w.nodeKeys)).flatten).dedup).length,
                    (path ++ [nodeKey]).map (fun k => graph.nodeVal k)⟩]) =
                  res := by injection h
              intro s hs
              rw [← h2] at hs
              rcases List.mem_append.mp hs with hm | hm
              · exact Or.inl hm
              · rcases List.mem_singleton.mp hm with rfl
                right
                have hcov_eq :
                    (((((path ++ [nodeKey]).map
                      (fun k => graph.nodeVal k)).map
                        (fun w => w.nodeKeys)).flatten).dedup).length =
                      minNumNodes := by
                  omega
                refine ⟨hcov_eq, hcov_eq, ?_⟩
                intro j hj
                rw [List.length_map, List.length_append,
                  List.length_singleton] at hj
                have hj2 : j ≤ path.length := by omega
                have hmaps :
                    (((path ++ [nodeKey]).map
                      (fun k => graph.nodeVal k)).take j) =
                    ((path.take j).map (fun k => graph.nodeVal k)) := by
                  rw [← List.map_take, htake j hj2]
                rw [hmaps]
                rcases Nat.eq_zero_or_pos j with rfl | hjpos
                · have hz : (chainCover ((path.take 0).map
                      (fun k => graph.nodeVal k))).length = 0 := rfl
                  omega
                · exact hpref j hjpos hj2
            · rw [if_neg hrec] at h
              intro s hs
              have hpref2 : ∀ j, 1 ≤ j → j ≤ (path ++ [nodeKey]).length →
                  (chainCover (((path ++ [nodeKey]).take j).map
                    (fun k => graph.nodeVal k))).length < minNumNodes := by
                intro j hj1 hj2
                rw [List.length_append, List.length_singleton] at hj2
                rcases Nat.lt_or_ge j (path.length + 1) with hjlt | hjge
                · have hj3 : j ≤ path.length := by omega
                  rw [htake j hj3]
                  exact hpref j hj1 hj3
                · have hj4 : j = path.length + 1 := by omega
                  have hj5 : j = (path ++ [nodeKey]).length := by
                    rw [List.length_append, List.length_singleton]
                    omega
                  rw [hj5, List.take_length]
                  show (((((path ++ [nodeKey]).map
                    (fun k => graph.nodeVal k)).map
                      (fun w => w.nodeKeys)).flatten).dedup).length < minNumNodes
                  omega
              exact foldlM_state_preserves Prod.snd
                (fun st neighborKey =>
                  exploreWordGraph fuel neighborKey (path ++ [nodeKey]) graph
                    st.1 minNumNodes st.2)
                (validSolution minNumNodes) (graph.successors nodeKey)
                (fun st x _ st2 hst2 b hb =>
                  ih x (path ++ [nodeKey]) st.1 st.2 st2 hpref2 hst2 b hb)
                (seen ++ [String.join (path ++ [nodeKey])], sols) res h s hs

/-- C4: when the target count equals the number of letter nodes of the box
(a duplicate-free key list covering every word stored in the word graph),
every solution a completed search records counts and covers exactly that
total, and no proper prefix of its chain already reached the total: the
accepting word is the first to complete the coverage, and the chain ends
there. -/
theorem findSolutions_cover (wordGraph : WGraph) (allKeys : List String)
    (minNumNodes : Nat) (sols : List LetterBoxSolution)
    (hsub : ∀ kv ∈ wordGraph.nodes, ∀ k2 ∈ kv.2.nodeKeys, k2 ∈ allKeys)
    (hnodup : allKeys.Nodup) (hmin : minNumNodes = allKeys.length)
    (h : findSolutions wordGraph minNumNodes = Except.ok sols) :
    ∀ s ∈ sols, s.numSeenLetterNodes = minNumNodes ∧
      (chainCover s.letterBoxWordList).length = minNumNodes ∧
      ∀ j < s.letterBoxWordList.length,
        (chainCover (s.letterBoxWordList.take j)).length < minNumNodes := by
  intro s hs
  have hsub2 : ∀ k k2, k2 ∈ (wordGraph.nodeVal k).nodeKeys → k2 ∈ allKeys := by
    intro k k2 hk2
    unfold WGraph.nodeVal at hk2
    cases hf : wordGraph.nodes.find? (fun p => p.1 == k) with
    | none =>
        rw [hf] at hk2
        cases hk2
    | some p =>
        rw [hf] at hk2
        exact hsub p (List.mem_of_find?_eq_some hf) k2 hk2
  have hstep : ∀ (st : List LetterBoxSolution) (x : String),
      x ∈ wordGraph.keys → ∀ st2,
      (exploreWordGraph 30 x [] wordGraph [] minNumNodes st).map
          (fun st => st.2) = Except.ok st2 →
      ∀ b ∈ id st2, b ∈ id st ∨ validSolution minNumNodes b := by
    intro st x _ st2 hst2 b hb
    cases hex : exploreWordGraph 30 x [] wordGraph [] minNumNodes st with
    | error e =>
        rw [hex] at hst2
        exact Except.noConfusion hst2
    | ok res =>
        rw [hex] at hst2
        have h2 : res.2 = st2 := by
          have h3 : (Except.ok res.2 : Except String (List LetterBoxSolution)) =
              Except.ok st2 := hst2
          injection h3
        exact exploreWordGraph_record_sound wordGraph allKeys minNumNodes hsub2
          hnodup hmin 30 x [] [] st res
          (by intro j hj1 hj2; simp at hj2; omega) hex b
          (by rw [h2]; exact hb)
  unfold findSolutions at h
  rcases foldlM_state_preserves (id)
    (fun solutions nodeKey =>
      (exploreWordGraph 30 nodeKey [] wordGraph [] minNumNodes
          solutions).map (fun st => st.2))
    (validSolution minNumNodes) wordGraph.keys
    hstep [] sols h s hs with hm | hp
  · cases hm
  · exact hp

/-- Witness for the coverage theorem at a concrete two-word graph whose
letter box has the two nodes k1 and k2. -/
theorem findSolutions_cover_witness :
    ((∀ kv ∈ (createWordGraph [wAB, wBA]).nodes,
        ∀ k2 ∈ kv.2.nodeKeys, k2 ∈ ["k1", "k2"]) ∧
      (["k1", "k2"] : List String).Nodup ∧
      2 = (["k1", "k2"] : List String).length ∧
      findSolutions (createWordGraph [wAB, wBA]) 2 =
        Except.ok [⟨2, [wAB]⟩, ⟨2, [wBA]⟩]) ∧
    (∀ s ∈ [(⟨2, [wAB]⟩ : LetterBoxSolution), ⟨2, [wBA]⟩],
      s.numSeenLetterNodes = 2 ∧
      (chainCover s.letterBoxWordList).length = 2 ∧
      ∀ j < s.letterBoxWordList.length,
        (chainCover (s.letterBoxWordList.take j)).length < 2) :=
  ⟨⟨by decide, by decide, by decide, rfl⟩,
   findSolutions_cover (createWordGraph [wAB, wBA]) ["k1", "k2"] 2 _
     (by decide) (by decide) (by decide) rfl⟩

/-- A list of node keys reachable step by step along directed successor
edges, starting from a given key. -/
def succChain (g : WGraph) : String → List String → Prop
  | _, [] => True
  | k, n :: rest => n ∈ g.successors k ∧ succChain g n rest

theorem foldlM_except_error_origin {σ α : Type} (f : σ → α → Except String σ)
    (l : List α) : ∀ st e, l.foldlM f st = Except.error e →
      ∃ x ∈ l, ∃ st2, f st2 x = Except.error e := by
  induction l with
  | nil =>
      intro st e h
      exact Except.noConfusion h
  | cons x xs ih =>
      intro st e h
      rw [List.foldlM_cons] at h
      cases hfx : f st x with
      | error e2 =>
          rw [hfx] at h
          have he : e2 = e := by
            have h2 : (Except.error e2 : Except String σ) = Except.error e := h
            injection h2
          exact ⟨x, List.mem_cons_self x xs, st, by rw [hfx, he]⟩
      | ok st2 =>
          rw [hfx] at h
          obtain ⟨y, hy, st3, hf3⟩ := ih st2 e h
          exact ⟨y, List.mem_cons_of_mem x hy, st3, hf3⟩

/-- C5: a call of the solution search entered with a chain longer than the
25-word cap raises the fatal error at once — it neither recurses nor
returns a normal result — while a call entered under the cap never fires
its own guard: any error it propagates is the cap error raised by a deeper
recursive entry, reached along successor edges, whose chain has grown to
exactly 26 words. -/
theorem exploreWordGraph_cap (fuel : Nat) :
    ∀ (nodeKey : String) (path : List String) (graph : WGraph)
      (seen : List String) (minNumNodes : Nat)
      (sols : List LetterBoxSolution),
      26 - path.length < fuel →
      (25 < path.length →
        exploreWordGraph fuel nodeKey path graph seen minNumNodes sols =
          Except.error "too many paths") ∧
      (path.length ≤ 25 → ∀ e,
        exploreWordGraph fuel nodeKey path graph seen minNumNodes sols =
          Except.error e →
        e = "too many paths" ∧
          ∃ ext, succChain graph nodeKey ext ∧
            path.length + 1 + ext.length = 27) := by
  induction fuel with
  | zero =>
      intro nodeKey path graph seen minNumNodes sols hfuel
      exact absurd hfuel (Nat.not_lt_zero _)
  | succ fuel ih =>
      intro nodeKey path graph seen minNumNodes sols hfuel
      constructor
      · intro hlen
        rw [exploreWordGraph, if_pos hlen]
      · intro hle e herr
        rw [exploreWordGraph] at herr
        rw [if_neg (by omega : ¬ path.length > 25)] at herr
        by_cases hnew : hasNewNode (graph.nodeVal nodeKey)
            (path.map (fun k => graph.nodeVal k)) = false
        · rw [if_pos hnew] at herr
          exact Except.noConfusion herr
        · rw [if_neg hnew] at herr
          by_cases hseen : seen.contains (String.join (path ++ [nodeKey])) = true
          · rw [if_pos hseen] at herr
            exact Except.noConfusion herr
          · rw [if_neg hseen] at herr
            by_cases hrec :
                (((((path ++ [nodeKey]).map
                  (fun k => graph.nodeVal k)).map
                    (fun w => w.nodeKeys)).flatten).dedup).length ≥
                  minNumNodes
            · rw [if_pos hrec] at herr
              exact Except.noConfusion herr
            · rw [if_neg hrec] at herr
              obtain ⟨n, hn, st2, hf2⟩ :=
                foldlM_except_error_origin _ _ _ e herr
              by_cases hplen : path.length = 25
              · have hfuel2 : 26 - (path ++ [nodeKey]).length < fuel := by
                  simp only [List.length_append, List.length_singleton]
                  omega
                have hcap := (ih n (path ++ [nodeKey]) graph st2.1 minNumNodes
                  st2.2 hfuel2).1
                  (by simp only [List.length_append, List.length_singleton]
                      omega)
                rw [hcap] at hf2
                have he : "too many paths" = e := by injection hf2
                refine ⟨he.symm, [n], ⟨hn, trivial⟩, ?_⟩
                simp only [List.length_singleton]
                omega
              · have hle2 : (path ++ [nodeKey]).length ≤ 25 := by
                  simp only [List.length_append, List.length_singleton]
                  omega
                have hfuel2 : 26 - (path ++ [nodeKey]).length < fuel := by
                  simp only [List.length_append, List.length_singleton]
                  omega
                obtain ⟨he, ext, hchain, hlen27⟩ :=
                  (ih n (path ++ [nodeKey]) graph st2.1 minNumNodes st2.2
                    hfuel2).2 hle2 e hf2
                refine ⟨he, n :: ext, ⟨hn, hchain⟩, ?_⟩
                simp only [List.length_append, List.length_singleton] at hlen27
                simp only [List.length_cons]
                omega

/-- Witness for the cap theorem: a call entered with a 26-word chain
returns the fatal error. -/
theorem exploreWordGraph_cap_witness :
    (26 - (List.replicate 26 "x").length < 5) ∧
    ((25 < (List.replicate 26 "x").length →
        exploreWordGraph 5 "k" (List.replicate 26 "x") ⟨[], []⟩ [] 0 [] =
          Except.error "too many paths") ∧
      ((List.replicate 26 "x").length ≤ 25 → ∀ e,
        exploreWordGraph 5 "k" (List.replicate 26 "x") ⟨[], []⟩ [] 0 [] =
          Except.error e →
        e = "too many paths" ∧
          ∃ ext, succChain ⟨[], []⟩ "k" ext ∧
            (List.replicate 26 "x").length + 1 + ext.length = 27)) :=
  ⟨by decide,
   exploreWordGraph_cap 5 "k" (List.replicate 26 "x") ⟨[], []⟩ [] 0 []
     (by decide)⟩

/-- graphlib nodeCount(), used by main as the full letter-node total. -/
def LBGraph.nodeCount (g : LBGraph) : Nat := g.nodes.length

theorem isWord_nil_dict (s : String) : isWord s [] = false := by
  by_cases hl : s.length < 3
  · rw [isWord, if_pos hl]
  · rw [isWord, if_neg hl]
    rfl

theorem isPrefixInTrie_nil (pre : String) : isPrefixInTrie pre [] = false := rfl

theorem visitNode_nil_dict (fuel : Nat) (nodeKey : String) (path seen : List String)
    (g : LBGraph) (words : List LetterBoxWord) :
    (visitNode fuel nodeKey path seen g [] words).2 = words := by
  cases fuel with
  | zero => rfl
  | succ fuel =>
      rw [visitNode]
      by_cases hseen :
          seen.contains (String.intercalate " " (path ++ [nodeKey])) = true
      · rw [if_pos hseen]
      · rw [if_neg hseen]
        simp only [isWord_nil_dict, isPrefixInTrie_nil, Bool.false_eq_true,
          if_false]

theorem findWords_nil_dict (g : LBGraph) : findWords [] g = [] := by
  unfold findWords
  have haux : ∀ (l : List String) (acc : List LetterBoxWord),
      l.foldl (fun words nodeKey =>
        (visitNode (maxWordLen [] + 2) nodeKey [] [] g [] words).2) acc = acc := by
    intro l
    induction l with
    | nil => intro acc; rfl
    | cons x xs ih =>
        intro acc
        rw [List.foldl_cons, visitNode_nil_dict, ih]
  exact haux g.keys []

/-- C9 counterexample: the degenerate layout with an empty middle side
still realizes the word aca (walked a, c, a between the two non-empty
sides) and the full pipeline then produces a non-empty solution list, so a
side with zero letters does NOT force empty result sets. -/
theorem empty_side_nonempty_results :
    (∃ s ∈ [["a"], [], ["c"]], s = ([] : List String)) ∧
    findWords ["aca"] (createLetterBoxGraph [["a"], [], ["c"]]) =
      [⟨ "aca", ["00:a", "20:c", "00:a"]⟩] ∧
    findSolutions (createWordGraph (filterWordsInLetterBox
        (findWords ["aca"] (createLetterBoxGraph [["a"], [], ["c"]]))))
        ((createLetterBoxGraph [["a"], [], ["c"]]).nodeCount) =
      Except.ok [⟨2, [⟨ "aca", ["00:a", "20:c", "00:a"]⟩]⟩] :=
  ⟨⟨[], by decide⟩, rfl, rfl⟩

/-- C9 (amended): a layout with zero sides, or an empty dictionary, yields
empty results at every stage without error: the letter graph of the empty
layout is empty, the word finder returns no words (for any dictionary on
the empty layout, and for the empty dictionary on any graph), and the
solution search on the word graph of an empty word set returns a normal,
empty solution list.  A layout that merely CONTAINS a side with zero
letters is not in general degenerate (see the counterexample). -/
theorem emptyInput_empty_results :
    createLetterBoxGraph [] = ⟨[], []⟩ ∧
    (∀ dict : List String, findWords dict (createLetterBoxGraph []) = []) ∧
    (∀ g : LBGraph, findWords [] g = []) ∧
    (∀ minNumNodes : Nat,
      findSolutions (createWordGraph []) minNumNodes = Except.ok []) ∧
    (∀ (sides : List (List String)) (minNumNodes : Nat),
      findSolutions (createWordGraph (filterWordsInLetterBox
          (findWords [] (createLetterBoxGraph sides)))) minNumNodes =
        Except.ok []) := by
  refine ⟨rfl, fun dict => rfl, findWords_nil_dict, fun minNumNodes => rfl, ?_⟩
  intro sides minNumNodes
  rw [findWords_nil_dict]
  rfl

/-- Witness for the word-graph edge theorem at a concrete chainable pair
of words. -/
theorem createWordGraph_edges_correct_witness :
    ((∀ w ∈ [wAB, wBA], w.nodeKeys ≠ []) ∧
      (∀ w1 ∈ [wAB, wBA], ∀ w2 ∈ [wAB, wBA],
        joinKey w1 = joinKey w2 → w1.nodeKeys = w2.nodeKeys)) ∧
    ((∀ e ∈ (createWordGraph [wAB, wBA]).edges,
        ∃ wa wb, wa ∈ [wAB, wBA] ∧ wb ∈ [wAB, wBA] ∧
          e = (joinKey wa, joinKey wb) ∧ lastKey wa = headKey wb ∧
          wa.nodeKeys ≠ wb.nodeKeys) ∧
      (∀ wa ∈ [wAB, wBA], ∀ wb ∈ [wAB, wBA],
        lastKey wa = headKey wb → wa.nodeKeys ≠ wb.nodeKeys →
        (joinKey wa, joinKey wb) ∈ (createWordGraph [wAB, wBA]).edges)) :=
  ⟨⟨by decide, by decide⟩,
   createWordGraph_edges_correct [wAB, wBA] (by decide) (by decide)⟩
